import Mathlib

/-!
Verification of the alignment & scoring engine of the repository
(`src/unnamed/part_006`, the Sherpa word-timeline module, and
`src/enjoy/src/renderer/lib/scoring-engine.ts`, the scoring engine).

Conventions of the shallow embedding:
* JavaScript numbers are modelled as exact rationals (`ℚ`); every concrete
  value appearing in the relevant computations is exactly representable and
  the float comparisons performed by the code agree with the rational ones.
* A JavaScript value that may be `undefined`/missing is modelled as an
  `Option`; `x ?? y` becomes `Option.getD`/`<|>` as appropriate.
* A JavaScript number that may be non-finite (`NaN`/`Infinity`, which in this
  code can only arise from the unguarded division in `integrityScore`) is
  modelled as `Option ℚ` with `none` standing for the non-finite values.
* The dynamic-programming matrices are built row by row, exactly as the
  source loops fill them; the backtrace loops are embedded with an explicit
  iteration budget (`fuel`) equal to the exact number of loop iterations
  (`i + j` decreases by at least one per iteration, so `n + m` suffices).
* Unicode NFKD decomposition is the identity on the inputs considered here
  and is modelled as the identity; the Unicode letter class `\p{L}` is
  modelled by `Char.isAlpha`.
-/

namespace Sherpa

/-- Constants of `src/unnamed/part_006`. -/
def MIN_WORD_DURATION : ℚ := 0.05

def START_PADDING_SEC : ℚ := 0.2

def END_PADDING_SEC : ℚ := 0.3

/-- `SherpaWordTiming` of `src/unnamed/part_006`. -/
structure SherpaWordTiming where
  original : String
  normalized : String
  startTime : ℚ
  endTime : ℚ
  deriving Repr, DecidableEq

/-- `WordToken` of `src/unnamed/part_006`. -/
structure WordToken where
  original : String
  normalized : String
  deriving Repr, DecidableEq

/-- `AlignmentOp` of `src/unnamed/part_006`: a tagged variant carrying the
reference and/or hypothesis index it consumed. -/
inductive AlignmentOp where
  | equal (refIndex hypIndex : ℕ)
  | replace (refIndex hypIndex : ℕ)
  | delete (refIndex : ℕ)
  | insert (hypIndex : ℕ)
  deriving Repr, DecidableEq

/-- Characters removed by `normalizeWordForAlignment`:
the regex class `[“”"()\[\],.:;!?]` (U+201C, U+201D, and ASCII marks). -/
def isStrippedPunct (c : Char) : Bool :=
  c = Char.ofNat 0x201C ∨ c = Char.ofNat 0x201D ∨ c = Char.ofNat 0x22 ∨
  c = '(' ∨ c = ')' ∨ c = '[' ∨ c = ']' ∨ c = ',' ∨ c = '.' ∨ c = ':' ∨
  c = ';' ∨ c = '!' ∨ c = '?'

/-- Combining diacritical marks `[̀-ͯ]` stripped after NFKD. -/
def isCombiningMark (c : Char) : Bool :=
  0x300 ≤ c.toNat ∧ c.toNat ≤ 0x36F

/-- Whitespace removed by JavaScript `String.prototype.trim`. -/
def isJsWhitespace (c : Char) : Bool :=
  c = ' ' ∨ c = Char.ofNat 0x9 ∨ c = Char.ofNat 0xA ∨ c = Char.ofNat 0xB ∨
  c = Char.ofNat 0xC ∨ c = Char.ofNat 0xD ∨ c = Char.ofNat 0xA0 ∨
  c = Char.ofNat 0x1680 ∨ (0x2000 ≤ c.toNat ∧ c.toNat ≤ 0x200A) ∨
  c = Char.ofNat 0x2028 ∨ c = Char.ofNat 0x2029 ∨ c = Char.ofNat 0x202F ∨
  c = Char.ofNat 0x205F ∨ c = Char.ofNat 0x3000 ∨ c = Char.ofNat 0xFEFF

/-- JavaScript `String.prototype.trim` on a character list. -/
def jsTrimChars (l : List Char) : List Char :=
  ((l.dropWhile isJsWhitespace).reverse.dropWhile isJsWhitespace).reverse

/-- JavaScript `String.prototype.trim`. -/
def jsTrim (s : String) : String :=
  String.mk (jsTrimChars s.data)

/-- `normalizeWordForAlignment` of `src/unnamed/part_006`: NFKD-decompose
(identity here), strip the punctuation class, strip combining marks,
lower-case, trim.  A `null`-ish result collapses to `""` (`|| ""`). -/
def normalizeWordForAlignment (word : String) : String :=
  let stripped := word.data.filter (fun c => ¬ isStrippedPunct c)
  let noMarks := stripped.filter (fun c => ¬ isCombiningMark c)
  let lowered := noMarks.map Char.toLower
  String.mk (jsTrimChars lowered)

/-- Word characters of `WORD_PATTERN = /[\p{L}\p{N}'’]+/gu`
(`\p{L}` modelled by `Char.isAlpha`, `\p{N}` by `Char.isDigit`). -/
def isWordChar (c : Char) : Bool :=
  c.isAlpha ∨ c.isDigit ∨ c = Char.ofNat 0x27 ∨ c = Char.ofNat 0x2019

/-- Maximal runs of word characters, as produced by
`text.matchAll(WORD_PATTERN)`.  `acc` is the (reversed) run being built. -/
def wordRunsAux : List Char → List Char → List (List Char)
  | [], acc => if acc.isEmpty then [] else [acc.reverse]
  | c :: rest, acc =>
    if isWordChar c then wordRunsAux rest (c :: acc)
    else if acc.isEmpty then wordRunsAux rest []
    else acc.reverse :: wordRunsAux rest []

def wordRuns (l : List Char) : List (List Char) :=
  wordRunsAux l []

/-- `tokenizeForAlignment` of `src/unnamed/part_006`: each regex match whose
normalization is non-empty becomes a `WordToken`. -/
def tokenizeForAlignment (text : String) : List WordToken :=
  if text = "" then []
  else
    (wordRuns text.data).filterMap fun run =>
      let original := String.mk run
      let normalized := normalizeWordForAlignment original
      if normalized = "" then none else some ⟨original, normalized⟩

/-- One row step of the `levenshteinDistance` matrix of
`src/unnamed/part_006`.  `prev` is the suffix of the previous row starting at
the diagonal entry (`prev.headD 0 = matrix[i-1][j-1]`,
`prev.tail.headD 0 = matrix[i-1][j]`), `left` is `matrix[i][j-1]`. -/
def levRowAux (x : Char) : List Char → List ℕ → ℕ → List ℕ
  | [], _, _ => []
  | y :: ys, prev, left =>
    let diag := prev.headD 0
    let up := prev.tail.headD 0
    let v := min (up + 1) (min (left + 1) (diag + (if x = y then 0 else 1)))
    v :: levRowAux x ys prev.tail v

/-- Builds the rows of the `levenshteinDistance` matrix of
`src/unnamed/part_006` (rows indexed by `a`, columns by `b`) and returns the
last row. -/
def levRowsGo (bs : List Char) : List Char → ℕ → List ℕ → List ℕ
  | [], _, row => row
  | x :: xs, i, row => levRowsGo bs xs (i + 1) ((i + 1) :: levRowAux x bs row (i + 1))

/-- `levenshteinDistance` of `src/unnamed/part_006`, with its early returns
for identical and empty inputs; the matrix fill is embedded row by row. -/
def levenshteinDistance (a b : String) : ℕ :=
  if a = b then 0
  else if a = "" then b.length
  else if b = "" then a.length
  else (levRowsGo b.data a.data 0 (List.range (b.data.length + 1))).getD b.data.length 0

/-- `tokensRoughlyMatch` of `src/unnamed/part_006`.  The source compares
`distance / maxLen <= 0.45` in floating point; for natural `distance` and
positive `maxLen` that comparison coincides with the exact rational
comparison `distance / maxLen ≤ 45/100`, i.e. `20 * distance ≤ 9 * maxLen`,
which is the form used here (the equivalence with the rational ratio form is
proved in the claim-C1 theorem below). -/
def tokensRoughlyMatch (left right : String) : Bool :=
  if left = right then true
  else if left = "" ∨ right = "" then false
  else
    let distance := levenshteinDistance left right
    let maxLen := if max left.length right.length = 0 then 1 else max left.length right.length
    decide (20 * distance ≤ 9 * maxLen)

end Sherpa

/-!
Generic edit-distance cost table, shared between the two aligners of the
repository (`computeAlignmentOps` in `src/unnamed/part_006` and
`alignSequence` in `scoring-engine.ts`).  Both sources fill an
`(n+1) × (m+1)` matrix with `dp[i][0] = i`, `dp[0][j] = j` and
`dp[i][j] = min(dp[i-1][j]+1, dp[i][j-1]+1, dp[i-1][j-1]+cost)`, differing
only in the token-similarity predicate `sim` that decides `cost ∈ {0, 1}`.
The matrix is embedded row by row, the way the loops fill it.
-/

namespace EditDp

/-- One row step of the cost matrix.  `prev` is the suffix of the previous
row starting at the diagonal entry (`prev.headD 0 = dp[i-1][j-1]`,
`prev.tail.headD 0 = dp[i-1][j]`), `left` is `dp[i][j-1]`. -/
def dpRowAux (sim : String → String → Bool) (r : String) :
    List String → List ℕ → ℕ → List ℕ
  | [], _, _ => []
  | h :: hs, prev, left =>
    let up := prev.tail.headD 0
    let diag := prev.headD 0
    let v := min (up + 1) (min (left + 1) (diag + (if sim r h then 0 else 1)))
    v :: dpRowAux sim r hs prev.tail v

/-- Builds the list of matrix rows, starting from row `i` with content
`row`; row `0` is `[0, 1, …, m]` (all insertions) and row `i+1` starts with
`i+1` (all deletions). -/
def dpRowsGo (sim : String → String → Bool) (hyp : List String) :
    List String → ℕ → List ℕ → List (List ℕ)
  | [], _, row => [row]
  | r :: rest, i, row =>
    row :: dpRowsGo sim hyp rest (i + 1) ((i + 1) :: dpRowAux sim r hyp row (i + 1))

/-- The full cost table `dp` for aligning `ref` against `hyp`. -/
def dpTable (sim : String → String → Bool) (ref hyp : List String) : List (List ℕ) :=
  dpRowsGo sim hyp ref 0 (List.range (hyp.length + 1))

/-- `dp[i][j]` of the cost table. -/
def dpv (sim : String → String → Bool) (ref hyp : List String) (i j : ℕ) : ℕ :=
  ((dpTable sim ref hyp).getD i []).getD j 0

/-- Row `k` of the table, described as `k` applications of the row step to a
starting row; used only to reason about `dpTable`. -/
def rowFrom (sim : String → String → Bool) (hyp : List String) :
    List String → ℕ → List ℕ → ℕ → List ℕ
  | _, _, row, 0 => row
  | [], _, _, _ + 1 => []
  | r :: rest, i0, row, k + 1 =>
    rowFrom sim hyp rest (i0 + 1) ((i0 + 1) :: dpRowAux sim r hyp row (i0 + 1)) k

/-- The `i`-th row of the table. -/
def tableRow (sim : String → String → Bool) (ref hyp : List String) (i : ℕ) : List ℕ :=
  (dpTable sim ref hyp).getD i []

end EditDp

namespace Sherpa

/-- The backtrace loop of `computeAlignmentOps` (`src/unnamed/part_006`,
lines 107–133): while `i > 0 || j > 0`, prefer a deletion when
`dp[i][j] == dp[i-1][j] + 1`, then an insertion when
`dp[i][j] == dp[i][j-1] + 1`, and otherwise take the diagonal step,
classified by `tokensRoughlyMatch`.  `fuel` is the loop's iteration budget;
every iteration decreases `i + j` by at least one, so the initial budget
`n + m` is never exhausted. -/
def backtraceAux (ref hyp : List String) : ℕ → ℕ → ℕ → List AlignmentOp
  | 0, _, _ => []
  | fuel + 1, i, j =>
    if i = 0 ∧ j = 0 then []
    else if 0 < i ∧ EditDp.dpv tokensRoughlyMatch ref hyp i j =
        EditDp.dpv tokensRoughlyMatch ref hyp (i - 1) j + 1 then
      AlignmentOp.delete (i - 1) :: backtraceAux ref hyp fuel (i - 1) j
    else if 0 < j ∧ EditDp.dpv tokensRoughlyMatch ref hyp i j =
        EditDp.dpv tokensRoughlyMatch ref hyp i (j - 1) + 1 then
      AlignmentOp.insert (j - 1) :: backtraceAux ref hyp fuel i (j - 1)
    else
      (if tokensRoughlyMatch (ref.getD (i - 1) "") (hyp.getD (j - 1) "") then
        AlignmentOp.equal (i - 1) (j - 1)
      else
        AlignmentOp.replace (i - 1) (j - 1)) :: backtraceAux ref hyp fuel (i - 1) (j - 1)

/-- `computeAlignmentOps` of `src/unnamed/part_006`: fill the cost table,
backtrace from `(n, m)`, and reverse the collected ops. -/
def computeAlignmentOps (refTokens hypTokens : List String) : List AlignmentOp :=
  (backtraceAux refTokens hypTokens (refTokens.length + hypTokens.length)
    refTokens.length hypTokens.length).reverse

end Sherpa

namespace Sherpa

/-- `safeNumber` of `src/unnamed/part_006`: a missing or non-finite value
(modelled as `none`) is replaced by the fallback. -/
def safeNumber (value : Option ℚ) (fallback : ℚ) : ℚ :=
  value.getD fallback

/-- `padWordWindow` of `src/unnamed/part_006`.  Its `safeNumber(start, 0)`
and `safeNumber(end, safeStart)` guards are the identity on the finite
(rational) inputs of this model. -/
def padWordWindow (start «end» : ℚ) : ℚ × ℚ :=
  let safeStart := start
  let safeEnd := max (safeStart + MIN_WORD_DURATION) «end»
  let paddedStart := max 0 (safeStart - START_PADDING_SEC)
  let paddedEnd := max (paddedStart + MIN_WORD_DURATION) (safeEnd + END_PADDING_SEC)
  (paddedStart, paddedEnd)

/-- One word entry of the `any`-typed recognizer payload accepted by
`parseSherpaWordTimings` (`word?.word ?? word?.text`,
`word?.start ?? word?.start_time`, `word?.end ?? word?.end_time`). -/
structure PayloadWord where
  word : Option String
  text : Option String
  start : Option ℚ
  start_time : Option ℚ
  «end» : Option ℚ
  end_time : Option ℚ

/-- One segment entry of the recognizer payload. -/
structure PayloadSegment where
  words : Option (List PayloadWord)
  text : Option String
  start : Option ℚ
  start_time : Option ℚ
  «end» : Option ℚ
  end_time : Option ℚ

/-- The accepted shapes of the `alignment` argument of
`parseSherpaWordTimings`: an optional `words` array, an optional `segments`
array, an optional `tokens`/`timestamps` pair, and an optional plain
`text`. -/
structure SherpaAlignment where
  words : Option (List PayloadWord)
  segments : Option (List PayloadSegment)
  tokens : Option (List String)
  timestamps : Option (List (Option ℚ))
  text : Option String

/-- The `pushWord` closure of `parseSherpaWordTimings`: drops a missing or
empty word and a word whose normalization is empty, coerces the times, and
enforces the minimum duration. -/
def pushWord (original : Option String) (start «end» : Option ℚ) :
    Option SherpaWordTiming :=
  match original with
  | none => none
  | some orig =>
    if orig = "" then none
    else
      let normalized := normalizeWordForAlignment orig
      if normalized = "" then none
      else
        let startTime := safeNumber start 0
        let endTime := max (startTime + MIN_WORD_DURATION)
          (safeNumber «end» (startTime + MIN_WORD_DURATION))
        some ⟨orig, normalized, startTime, endTime⟩

/-- `pushWord` applied to one payload word. -/
def pushPayloadWord (w : PayloadWord) : Option SherpaWordTiming :=
  pushWord (w.word <|> w.text) (w.start <|> w.start_time) (w.«end» <|> w.end_time)

/-- Words contributed by one payload segment: its `words` array if present,
otherwise its (truthy, i.e. non-empty) `text`. -/
def segmentWords (seg : PayloadSegment) : List SherpaWordTiming :=
  match seg.words with
  | some ws => ws.filterMap pushPayloadWord
  | none =>
    match seg.text with
    | some t =>
      if t = "" then []
      else (pushWord (some t) (seg.start <|> seg.start_time)
        (seg.«end» <|> seg.end_time)).toList
    | none => []

/-- `parseSherpaWordTimings` of `src/unnamed/part_006`: collect words from
the `words` array, then the `segments`, then (if still empty) from
`tokens`/`timestamps`, then (if still empty) by spreading the tokenized
`text` evenly over the duration; finally sort by start time (JavaScript
`Array.prototype.sort` with the comparator `a.startTime - b.startTime`,
modelled as a stable merge sort on the same key). -/
def parseSherpaWordTimings (alignment : SherpaAlignment) (fallbackDuration : ℚ) :
    List SherpaWordTiming :=
  let fromWords :=
    match alignment.words with
    | some ws => ws.filterMap pushPayloadWord
    | none => []
  let fromSegments :=
    match alignment.segments with
    | some segs => segs.flatMap segmentWords
    | none => []
  let base := fromWords ++ fromSegments
  let fromTokens :=
    if base.isEmpty then
      match alignment.tokens with
      | some tokens =>
        let timestamps :=
          match alignment.timestamps with
          | some ts => ts
          | none => List.replicate (tokens.length + 1) (some 0)
        tokens.enum.filterMap fun p =>
          let start := safeNumber (timestamps.getD p.1 none) ((p.1 : ℚ) * MIN_WORD_DURATION)
          let «end» := safeNumber (timestamps.getD (p.1 + 1) none) (start + MIN_WORD_DURATION)
          pushWord (some p.2) (some start) (some «end»)
      | none => []
    else []
  let base2 := base ++ fromTokens
  let fromText :=
    if base2.isEmpty then
      match alignment.text with
      | some txt =>
        let tokenized := tokenizeForAlignment txt
        let totalDuration := max fallbackDuration (MIN_WORD_DURATION * tokenized.length)
        let step := totalDuration / (max 1 tokenized.length : ℚ)
        tokenized.enum.map fun p =>
          let start := (p.1 : ℚ) * step
          { original := p.2.original, normalized := p.2.normalized,
            startTime := start, endTime := start + step }
      | none => []
    else []
  (base2 ++ fromText).mergeSort fun a b => decide (a.startTime ≤ b.startTime)

/-- A primary-timeline entry (`TimelineEntry` with `type: "word"`; the
constant `type` field and the empty sub-`timeline` are omitted). -/
structure TimelineEntry where
  text : String
  startTime : ℚ
  endTime : ℚ
  deriving Repr, DecidableEq

/-- The `ops.forEach` loop of `buildTimelineEntriesFromOps`
(`src/unnamed/part_006`, lines 230–269), with the mutable `lastEnd` made an
explicit argument.  Out-of-range accesses `tokens[op.refIndex]` and
`sherpaWords[op.hypIndex]` (which do not occur for ops produced by the
aligner) are modelled by zero defaults. -/
def timelineGo (tokens : List WordToken) (sherpaWords : List SherpaWordTiming) :
    List AlignmentOp → ℚ → List TimelineEntry
  | [], _ => []
  | op :: rest, lastEnd =>
    match op with
    | .equal refIndex hypIndex | .replace refIndex hypIndex =>
      let word := tokens.getD refIndex ⟨"", ""⟩
      let meta := sherpaWords.getD hypIndex ⟨"", "", 0, 0⟩
      let p := padWordWindow meta.startTime meta.endTime
      let text := if word.original = "" then meta.original else word.original
      ⟨text, p.1, p.2⟩ :: timelineGo tokens sherpaWords rest p.2
    | .delete refIndex =>
      let word := tokens.getD refIndex ⟨"", ""⟩
      let start := max 0 (lastEnd - 0.1)
      let «end» := start + 0.4
      ⟨word.original, start, «end»⟩ :: timelineGo tokens sherpaWords rest «end»
    | .insert _ => timelineGo tokens sherpaWords rest lastEnd

/-- `buildTimelineEntriesFromOps` of `src/unnamed/part_006`: `lastEnd`
starts at `0`; insert ops are intentionally ignored. -/
def buildTimelineEntriesFromOps (tokens : List WordToken)
    (sherpaWords : List SherpaWordTiming) (ops : List AlignmentOp) : List TimelineEntry :=
  timelineGo tokens sherpaWords ops 0

/-- The record returned by `buildWordTimelineFromSherpa`. -/
structure WordTimelineResult where
  timeline : List TimelineEntry
  tokens : List WordToken
  ops : List AlignmentOp
  deriving Repr, DecidableEq

/-- `buildWordTimelineFromSherpa` of `src/unnamed/part_006`. -/
def buildWordTimelineFromSherpa (referenceText : String)
    (sherpaWords : List SherpaWordTiming) : WordTimelineResult :=
  let tokens := tokenizeForAlignment referenceText
  if tokens.length = 0 ∨ sherpaWords.length = 0 then ⟨[], tokens, []⟩
  else
    let ops := computeAlignmentOps (tokens.map (·.normalized))
      (sherpaWords.map (·.normalized))
    ⟨buildTimelineEntriesFromOps tokens sherpaWords ops, tokens, ops⟩

/-- The reference index consumed by an op, if any (Match/Substitution/
Deletion ops carry one). -/
def refIndexOf : AlignmentOp → Option ℕ
  | .equal r _ => some r
  | .replace r _ => some r
  | .delete r => some r
  | .insert _ => none

/-- The hypothesis index consumed by an op, if any (Match/Substitution/
Insertion ops carry one). -/
def hypIndexOf : AlignmentOp → Option ℕ
  | .equal _ h => some h
  | .replace _ h => some h
  | .insert h => some h
  | .delete _ => none

/-- Cost of one op: matches are free, substitutions, deletions and
insertions cost `1`. -/
def opCost : AlignmentOp → ℕ
  | .equal _ _ => 0
  | .replace _ _ => 1
  | .delete _ => 1
  | .insert _ => 1

def isInsertOp : AlignmentOp → Bool
  | .insert _ => true
  | _ => false

def isDeleteOp : AlignmentOp → Bool
  | .delete _ => true
  | _ => false

/-- The ops that emit a timeline entry (everything but insertions). -/
def nonInsertOps (ops : List AlignmentOp) : List AlignmentOp :=
  ops.filter fun op => ¬ isInsertOp op

end Sherpa

namespace ScoringEngine

/-- `SherpaToken` of `scoring-engine.ts` (`confidence` is `0.0 – 1.0`; the
source applies `?? 0.95`, so a missing value is modelled as `none`). -/
structure SherpaToken where
  text : String
  start : ℚ
  «end» : ℚ
  confidence : Option ℚ
  deriving Repr, DecidableEq

/-- `AssessmentInput` of `scoring-engine.ts`. -/
structure AssessmentInput where
  referenceText : String
  recognizedTokens : List SherpaToken
  deriving Repr, DecidableEq

/-- `WordStatus` of `scoring-engine.ts`. -/
inductive WordStatus where
  | correct
  | mispronounced
  | omitted
  | inserted
  deriving Repr, DecidableEq

/-- `WordResult` of `scoring-engine.ts`. -/
structure WordResult where
  word : String
  status : WordStatus
  score : ℚ
  timestamps : Option (ℚ × ℚ)
  deriving Repr, DecidableEq

/-- `AssessmentReport` of `scoring-engine.ts`.  The four aggregate scores
are JavaScript numbers that can be non-finite (`integrityScore` divides by
`refCount` without a zero guard), so they are modelled as `Option ℚ` with
`none` for a non-finite value. -/
structure AssessmentReport where
  overallScore : Option ℚ
  fluencyScore : Option ℚ
  integrityScore : Option ℚ
  pronunciationScore : Option ℚ
  details : List WordResult
  deriving Repr, DecidableEq

/-- `emptyReport` of `scoring-engine.ts`. -/
def emptyReport : AssessmentReport :=
  ⟨some 0, some 0, some 0, some 0, []⟩

/-- JavaScript `Math.round` on a finite number: round half toward `+∞`. -/
def jsRound (q : ℚ) : ℚ :=
  (⌊q + 1 / 2⌋ : ℚ)

/-- Addition of possibly-non-finite JavaScript numbers. -/
def jsAdd : Option ℚ → Option ℚ → Option ℚ :=
  Option.map₂ (· + ·)

/-- Multiplication of possibly-non-finite JavaScript numbers. -/
def jsMul : Option ℚ → Option ℚ → Option ℚ :=
  Option.map₂ (· * ·)

/-- Division of possibly-non-finite JavaScript numbers: division by zero
produces a non-finite value (`NaN` for `0 / 0`, `±Infinity` otherwise),
modelled as `none`. -/
def jsDiv : Option ℚ → Option ℚ → Option ℚ
  | some a, some b => if b = 0 then none else some (a / b)
  | _, _ => none

/-- `Math.round` lifted to possibly-non-finite numbers (`Math.round(NaN)`
is `NaN`, `Math.round(±Infinity)` is `±Infinity`). -/
def jsRoundN : Option ℚ → Option ℚ :=
  Option.map jsRound

/-- The punctuation class `[.,?!;:"']` of `normalize` and
`normalizeAndTokenize` in `scoring-engine.ts` (all ASCII). -/
def isScorePunct (c : Char) : Bool :=
  c = '.' ∨ c = ',' ∨ c = '?' ∨ c = '!' ∨ c = ';' ∨ c = ':' ∨
  c = Char.ofNat 0x22 ∨ c = Char.ofNat 0x27

/-- `normalize` of `scoring-engine.ts`: lower-case, delete the punctuation
class, trim. -/
def normalize (text : String) : String :=
  String.mk (Sherpa.jsTrimChars
    ((text.data.map Char.toLower).filter fun c => ¬ isScorePunct c))

/-- Splitting on runs of whitespace (`split(/\s+/)`), keeping only the
non-empty chunks; `acc` is the (reversed) chunk being built. -/
def splitWsAux : List Char → List Char → List String
  | [], acc => if acc.isEmpty then [] else [String.mk acc.reverse]
  | c :: rest, acc =>
    if Sherpa.isJsWhitespace c then
      if acc.isEmpty then splitWsAux rest []
      else String.mk acc.reverse :: splitWsAux rest []
    else splitWsAux rest (c :: acc)

/-- `normalizeAndTokenize` of `scoring-engine.ts`: lower-case, replace the
punctuation class by spaces, split on whitespace, drop empty words. -/
def normalizeAndTokenize (text : String) : List String :=
  (splitWsAux ((text.data.map Char.toLower).map fun c =>
    if isScorePunct c then ' ' else c) []).filter fun w => 0 < w.length

/-- A recognized token together with its normalization, as built by
`recognizedTokens.map(t => ({...t, normalized: normalize(t.text)}))`. -/
structure RecWord where
  text : String
  start : ℚ
  «end» : ℚ
  confidence : Option ℚ
  normalized : String
  deriving Repr, DecidableEq

/-- One row step of the `computeLevenshtein` matrix of `scoring-engine.ts`
(rows indexed by `b`, columns by `a`).  `prev` is the suffix of the previous
row starting at the diagonal entry, `left` is `matrix[i][j-1]`.  On equal
characters the diagonal value is taken unchanged. -/
def levRowAux2 (y : Char) : List Char → List ℕ → ℕ → List ℕ
  | [], _, _ => []
  | x :: xs, prev, left =>
    let diag := prev.headD 0
    let v := if y = x then diag
      else min (diag + 1) (min (left + 1) (prev.tail.headD 0 + 1))
    v :: levRowAux2 y xs prev.tail v

/-- Builds the rows of the `computeLevenshtein` matrix and returns the last
row. -/
def levRows2Go (as : List Char) : List Char → ℕ → List ℕ → List ℕ
  | [], _, row => row
  | y :: ys, i, row => levRows2Go as ys (i + 1) ((i + 1) :: levRowAux2 y as row (i + 1))

/-- `computeLevenshtein` of `scoring-engine.ts`, with its early returns for
empty inputs; the matrix fill is embedded row by row. -/
def computeLevenshtein (a b : String) : ℕ :=
  if a.length = 0 then b.length
  else if b.length = 0 then a.length
  else (levRows2Go a.data b.data 0 (List.range (a.data.length + 1))).getD a.data.length 0

/-- `stringSimilarity` of `scoring-engine.ts`. -/
def stringSimilarity (a b : String) : ℚ :=
  let dist := computeLevenshtein a b
  let maxLen := max a.length b.length
  if maxLen = 0 then 1
  else 1 - (dist : ℚ) / (maxLen : ℚ)

/-- `AlignmentType` of `scoring-engine.ts` (`match` is a Lean keyword, so
the `'match'` variant is named `matched`). -/
inductive AlignmentType where
  | matched
  | substitution
  | deletion
  | insertion
  deriving Repr, DecidableEq

/-- `AlignmentItem` of `scoring-engine.ts`: `refIndex` is `-1` for an
insertion, `recIndex` is `-1` for a deletion. -/
structure AlignmentItem where
  type : AlignmentType
  refIndex : ℤ
  recIndex : ℤ
  deriving Repr, DecidableEq

/-- The token-equality predicate of `alignSequence`
(`ref[i-1] === rec[j-1].normalized`). -/
def simEq : String → String → Bool := fun a b => a == b

/-- The backtrack loop of `alignSequence` (`scoring-engine.ts`, lines
243–277): while `i > 0 || j > 0`, when both indices are positive the op is
re-derived from the cost values with the priority diagonal (match or
substitution), then deletion, then insertion; at the borders only deletions
resp. insertions remain.  `fuel` is the loop's iteration budget; every
iteration decreases `i + j` by at least one, so `n + m` is never
exhausted. -/
def alignBacktraceAux (ref hyp : List String) : ℕ → ℕ → ℕ → List AlignmentItem
  | 0, _, _ => []
  | fuel + 1, i, j =>
    if i = 0 ∧ j = 0 then []
    else if 0 < i ∧ 0 < j then
      let isMatch := simEq (ref.getD (i - 1) "") (hyp.getD (j - 1) "")
      let subCost := EditDp.dpv simEq ref hyp (i - 1) (j - 1) + (if isMatch then 0 else 1)
      let delCost := EditDp.dpv simEq ref hyp (i - 1) j + 1
      if EditDp.dpv simEq ref hyp i j = subCost then
        ⟨if isMatch then .matched else .substitution, (i : ℤ) - 1, (j : ℤ) - 1⟩ ::
          alignBacktraceAux ref hyp fuel (i - 1) (j - 1)
      else if EditDp.dpv simEq ref hyp i j = delCost then
        ⟨.deletion, (i : ℤ) - 1, -1⟩ :: alignBacktraceAux ref hyp fuel (i - 1) j
      else
        ⟨.insertion, -1, (j : ℤ) - 1⟩ :: alignBacktraceAux ref hyp fuel i (j - 1)
    else if 0 < i then
      ⟨.deletion, (i : ℤ) - 1, -1⟩ :: alignBacktraceAux ref hyp fuel (i - 1) j
    else
      ⟨.insertion, -1, (j : ℤ) - 1⟩ :: alignBacktraceAux ref hyp fuel i (j - 1)

/-- `alignSequence` of `scoring-engine.ts`: fill the cost table over the
normalized recognized words, backtrack from `(n, m)`, and reverse. -/
def alignSequence (ref : List String) (recs : List RecWord) : List AlignmentItem :=
  let hyp := recs.map (·.normalized)
  (alignBacktraceAux ref hyp (ref.length + hyp.length) ref.length hyp.length).reverse

/-- One iteration of the `alignment.forEach` scoring loop of
`ScoringEngine.assess`: the `WordResult` pushed for the item, if any
(insertions are ignored).  Out-of-range index accesses (which do not occur
for items produced by `alignSequence`) are modelled by zero defaults. -/
def detailOf (refWords : List String) (recWords : List RecWord)
    (item : AlignmentItem) : Option WordResult :=
  match item.type with
  | .matched =>
    let refWord := refWords.getD item.refIndex.toNat ""
    let recToken := recWords.getD item.recIndex.toNat ⟨"", 0, 0, none, ""⟩
    let score := jsRound ((recToken.confidence.getD 0.95) * 100)
    some ⟨refWord, .correct, score, some (recToken.start, recToken.«end»)⟩
  | .substitution =>
    let refWord := refWords.getD item.refIndex.toNat ""
    let recToken := recWords.getD item.recIndex.toNat ⟨"", 0, 0, none, ""⟩
    let similarity := stringSimilarity refWord recToken.normalized
    let score := 40 + jsRound (similarity * 20)
    some ⟨refWord, .mispronounced, score, some (recToken.start, recToken.«end»)⟩
  | .deletion =>
    some ⟨refWords.getD item.refIndex.toNat "", .omitted, 0, none⟩
  | .insertion => none

/-- The pause-counting loop of `ScoringEngine.assess`: the number of
consecutive raw-token pairs whose gap `recognizedTokens[i].start -
recognizedTokens[i-1].end` exceeds `0.5`. -/
def countPauses : List SherpaToken → ℕ
  | a :: b :: rest => (if (0.5 : ℚ) < b.start - a.«end» then 1 else 0) + countPauses (b :: rest)
  | _ => 0

/-- The `recWords` mapping of `ScoringEngine.assess`
(`recognizedTokens.map(t => ({...t, normalized: normalize(t.text)}))`). -/
def toRecWords (recognizedTokens : List SherpaToken) : List RecWord :=
  recognizedTokens.map fun t => ⟨t.text, t.start, t.«end», t.confidence, normalize t.text⟩

/-- The `details` constant of `ScoringEngine.assess`: the word results
pushed by the scoring loop. -/
def detailsOf (refWords : List String) (recWords : List RecWord) : List WordResult :=
  (alignSequence refWords recWords).filterMap (detailOf refWords recWords)

/-- The `matchCount` counter of `ScoringEngine.assess`. -/
def matchCountOf (refWords : List String) (recWords : List RecWord) : ℕ :=
  (alignSequence refWords recWords).countP fun item => item.type == .matched

/-- The `fluencyScore` constant of `ScoringEngine.assess`:
`Math.max(0, 100 - pauses * 5)`. -/
def fluencyScoreOf (recognizedTokens : List SherpaToken) : ℚ :=
  max 0 (100 - (countPauses recognizedTokens : ℚ) * 5)

/-- The `pronunciationScore` constant of `ScoringEngine.assess`:
`Math.round(totalWordScore / Math.max(1, details.length))`. -/
def pronunciationScoreOf (details : List WordResult) : ℚ :=
  jsRound ((details.map (·.score)).sum / (max 1 details.length : ℚ))

/-- The `integrityScore` constant of `ScoringEngine.assess`:
`Math.round((matchCount / refCount) * 100)`, non-finite when `refCount` is
zero. -/
def integrityScoreOf (matchCount refCount : ℕ) : Option ℚ :=
  jsRoundN (jsMul (jsDiv (some (matchCount : ℚ)) (some (refCount : ℚ))) (some 100))

/-- The `overallScore` constant of `ScoringEngine.assess`:
`Math.round(pron * 0.5 + integrity * 0.3 + fluency * 0.2)`. -/
def overallScoreOf (pronunciationScore : ℚ) (integrityScore : Option ℚ)
    (fluencyScore : ℚ) : Option ℚ :=
  jsRoundN (jsAdd (jsAdd
    (jsMul (some pronunciationScore) (some 0.5))
    (jsMul integrityScore (some 0.3)))
    (jsMul (some fluencyScore) (some 0.2)))

/-- `ScoringEngine.assess` of `scoring-engine.ts`; the local `const`s of the
source are the named helper functions above. -/
def assess (input : AssessmentInput) : AssessmentReport :=
  let referenceText := input.referenceText
  let recognizedTokens := input.recognizedTokens
  if referenceText = "" ∨ (Sherpa.jsTrim referenceText).length = 0 then emptyReport
  else
    let refWords := normalizeAndTokenize referenceText
    let recWords := toRecWords recognizedTokens
    if recWords.length = 0 then
      { overallScore := some 0, fluencyScore := some 0, integrityScore := some 0,
        pronunciationScore := some 0,
        details := refWords.map fun w => ⟨w, .omitted, 0, none⟩ }
    else
      let details := detailsOf refWords recWords
      let fluencyScore := fluencyScoreOf recognizedTokens
      let pronunciationScore := pronunciationScoreOf details
      let integrityScore := integrityScoreOf (matchCountOf refWords recWords) refWords.length
      { overallScore := overallScoreOf pronunciationScore integrityScore fluencyScore,
        fluencyScore := some fluencyScore,
        integrityScore := integrityScore,
        pronunciationScore := some pronunciationScore,
        details := details }

/-- A recognized-word list is valid when every confidence that is present
lies in `[0, 1]` and every end time is at least the start time. -/
def validInput (input : AssessmentInput) : Bool :=
  input.recognizedTokens.all fun t =>
    (t.confidence.all fun c => decide (0 ≤ c ∧ c ≤ 1)) && decide (t.start ≤ t.«end»)

/-- A report score is an integer in `[0, 100]` (in particular it is
finite). -/
def scoreOK (x : Option ℚ) : Prop :=
  ∃ k : ℤ, x = some (k : ℚ) ∧ 0 ≤ k ∧ k ≤ 100

end ScoringEngine

namespace EditDp

theorem getD_tail (l : List ℕ) (k : ℕ) : l.tail.getD k 0 = l.getD (k + 1) 0 := by
  cases l <;> simp

theorem headD_eq_getD (l : List ℕ) : l.headD 0 = l.getD 0 0 := by
  cases l <;> simp

theorem dpRowsGo_getD (sim : String → String → Bool) (hyp : List String) :
    ∀ (rest : List String) (i0 : ℕ) (row : List ℕ) (k : ℕ),
      (dpRowsGo sim hyp rest i0 row).getD k [] = rowFrom sim hyp rest i0 row k := by
  intro rest
  induction rest with
  | nil =>
    intro i0 row k
    cases k <;> simp [dpRowsGo, rowFrom]
  | cons r rest ih =>
    intro i0 row k
    cases k with
    | zero => simp [dpRowsGo, rowFrom]
    | succ k =>
      show (dpRowsGo sim hyp rest (i0 + 1) _).getD k [] = _
      rw [ih]
      rfl

theorem rowFrom_succ (sim : String → String → Bool) (hyp : List String) :
    ∀ (i : ℕ) (rest : List String) (i0 : ℕ) (row : List ℕ), i < rest.length →
      rowFrom sim hyp rest i0 row (i + 1) =
        (i0 + i + 1) :: dpRowAux sim (rest.getD i "") hyp
          (rowFrom sim hyp rest i0 row i) (i0 + i + 1) := by
  intro i
  induction i with
  | zero =>
    intro rest i0 row h
    match rest with
    | r :: rest => simp [rowFrom]
  | succ i ih =>
    intro rest i0 row h
    match rest with
    | r :: rest =>
      simp only [List.length_cons] at h
      have h' : i < rest.length := by omega
      rw [show rowFrom sim hyp (r :: rest) i0 row (i + 1 + 1) =
          rowFrom sim hyp rest (i0 + 1) ((i0 + 1) :: dpRowAux sim r hyp row (i0 + 1)) (i + 1)
          from rfl,
        ih rest (i0 + 1) ((i0 + 1) :: dpRowAux sim r hyp row (i0 + 1)) h']
      have : rowFrom sim hyp rest (i0 + 1) ((i0 + 1) :: dpRowAux sim r hyp row (i0 + 1)) i =
          rowFrom sim hyp (r :: rest) i0 row (i + 1) := rfl
      rw [this]
      congr 1 <;> [omega; skip]
      congr 1
      omega

theorem tableRow_eq (sim : String → String → Bool) (ref hyp : List String) (i : ℕ) :
    tableRow sim ref hyp i = rowFrom sim hyp ref 0 (List.range (hyp.length + 1)) i := by
  rw [tableRow, dpTable, dpRowsGo_getD]

theorem dpv_eq_tableRow (sim : String → String → Bool) (ref hyp : List String) (i j : ℕ) :
    dpv sim ref hyp i j = (tableRow sim ref hyp i).getD j 0 := rfl

theorem tableRow_succ (sim : String → String → Bool) (ref hyp : List String) (i : ℕ)
    (h : i < ref.length) :
    tableRow sim ref hyp (i + 1) =
      (i + 1) :: dpRowAux sim (ref.getD i "") hyp (tableRow sim ref hyp i) (i + 1) := by
  rw [tableRow_eq, tableRow_eq, rowFrom_succ sim hyp i ref 0 _ h]
  norm_num

theorem dpv_zero_left (sim : String → String → Bool) (ref hyp : List String) (j : ℕ)
    (h : j ≤ hyp.length) : dpv sim ref hyp 0 j = j := by
  rw [dpv_eq_tableRow, tableRow_eq]
  simp only [rowFrom]
  simp [List.getD_eq_getElem?_getD, List.getElem?_range, Nat.lt_succ_of_le h]

theorem dpv_zero_right (sim : String → String → Bool) (ref hyp : List String) (i : ℕ)
    (h : i ≤ ref.length) : dpv sim ref hyp i 0 = i := by
  cases i with
  | zero => exact dpv_zero_left sim ref hyp 0 (by omega)
  | succ i =>
    rw [dpv_eq_tableRow, tableRow_succ sim ref hyp i (by omega)]
    simp

end EditDp

namespace EditDp

theorem dpRowAux_getD_zero (sim : String → String → Bool) (r : String)
    (hs : List String) (prev : List ℕ) (left : ℕ) (h : 0 < hs.length) :
    (dpRowAux sim r hs prev left).getD 0 0 =
      min (prev.getD 1 0 + 1) (min (left + 1)
        (prev.getD 0 0 + if sim r (hs.getD 0 "") then 0 else 1)) := by
  match hs with
  | h0 :: hs =>
    simp only [dpRowAux, List.getD_cons_zero, headD_eq_getD, getD_tail]

theorem dpRowAux_getD_succ (sim : String → String → Bool) (r : String) :
    ∀ (j : ℕ) (hs : List String) (prev : List ℕ) (left : ℕ), j + 1 < hs.length →
      (dpRowAux sim r hs prev left).getD (j + 1) 0 =
        min (prev.getD (j + 2) 0 + 1)
          (min ((dpRowAux sim r hs prev left).getD j 0 + 1)
            (prev.getD (j + 1) 0 + if sim r (hs.getD (j + 1) "") then 0 else 1)) := by
  intro j
  induction j with
  | zero =>
    intro hs prev left h
    match hs with
    | h0 :: hs =>
      simp only [List.length_cons] at h
      simp only [dpRowAux, List.getD_cons_succ, List.getD_cons_zero]
      rw [dpRowAux_getD_zero sim r hs prev.tail _ (by omega)]
      simp only [headD_eq_getD, getD_tail]
  | succ j ih =>
    intro hs prev left h
    match hs with
    | h0 :: hs =>
      simp only [List.length_cons] at h
      simp only [dpRowAux, List.getD_cons_succ]
      rw [ih hs prev.tail _ (by omega)]
      simp only [headD_eq_getD, getD_tail]

/-- The defining recurrence of the cost table, recovered from the row-wise
construction: for in-range `i`, `j`,
`dp[i+1][j+1] = min(dp[i][j+1]+1, dp[i+1][j]+1, dp[i][j]+cost)`. -/
theorem dpv_rec (sim : String → String → Bool) (ref hyp : List String) (i j : ℕ)
    (hi : i < ref.length) (hj : j < hyp.length) :
    dpv sim ref hyp (i + 1) (j + 1) =
      min (dpv sim ref hyp i (j + 1) + 1)
        (min (dpv sim ref hyp (i + 1) j + 1)
          (dpv sim ref hyp i j + if sim (ref.getD i "") (hyp.getD j "") then 0 else 1)) := by
  have hrow := tableRow_succ sim ref hyp i hi
  rw [dpv_eq_tableRow, dpv_eq_tableRow sim ref hyp i (j + 1),
    dpv_eq_tableRow sim ref hyp (i + 1) j, dpv_eq_tableRow sim ref hyp i j, hrow]
  cases j with
  | zero =>
    simp only [List.getD_cons_succ, List.getD_cons_zero]
    rw [dpRowAux_getD_zero sim _ hyp _ _ (by omega)]
  | succ j =>
    simp only [List.getD_cons_succ]
    rw [dpRowAux_getD_succ sim _ j hyp _ _ (by omega)]

/-- `dp[i][j]` always equals one of its three predecessor options. -/
theorem dpv_cases (sim : String → String → Bool) (ref hyp : List String) (i j : ℕ)
    (hi : 0 < i) (hi' : i ≤ ref.length) (hj : 0 < j) (hj' : j ≤ hyp.length) :
    dpv sim ref hyp i j = dpv sim ref hyp (i - 1) j + 1 ∨
    dpv sim ref hyp i j = dpv sim ref hyp i (j - 1) + 1 ∨
    dpv sim ref hyp i j = dpv sim ref hyp (i - 1) (j - 1) +
      if sim (ref.getD (i - 1) "") (hyp.getD (j - 1) "") then 0 else 1 := by
  match i, j with
  | i + 1, j + 1 =>
    have h := dpv_rec sim ref hyp i j (by omega) (by omega)
    simp only [Nat.add_sub_cancel]
    omega

/-- When the backtrace takes the diagonal step (neither the deletion nor the
insertion equation holds), `dp[i][j]` equals the diagonal option. -/
theorem dpv_diag (sim : String → String → Bool) (ref hyp : List String) (i j : ℕ)
    (hi : 0 < i) (hi' : i ≤ ref.length) (hj : 0 < j) (hj' : j ≤ hyp.length)
    (hdel : ¬ dpv sim ref hyp i j = dpv sim ref hyp (i - 1) j + 1)
    (hins : ¬ dpv sim ref hyp i j = dpv sim ref hyp i (j - 1) + 1) :
    dpv sim ref hyp i j = dpv sim ref hyp (i - 1) (j - 1) +
      if sim (ref.getD (i - 1) "") (hyp.getD (j - 1) "") then 0 else 1 := by
  have h := dpv_cases sim ref hyp i j hi hi' hj hj'
  tauto

end EditDp

theorem range_reverse_succ (n : ℕ) :
    (List.range (n + 1)).reverse = n :: (List.range n).reverse := by
  rw [List.range_succ]
  simp

namespace Sherpa

/-- In the backtrace loop, when neither the deletion nor the insertion
branch fires and the loop has not terminated, both indices are positive. -/
theorem backtrace_branch_pos (ref hyp : List String) (i j : ℕ)
    (hi : i ≤ ref.length) (hj : j ≤ hyp.length) (h0 : ¬(i = 0 ∧ j = 0))
    (hdel : ¬(0 < i ∧ EditDp.dpv tokensRoughlyMatch ref hyp i j =
      EditDp.dpv tokensRoughlyMatch ref hyp (i - 1) j + 1))
    (hins : ¬(0 < j ∧ EditDp.dpv tokensRoughlyMatch ref hyp i j =
      EditDp.dpv tokensRoughlyMatch ref hyp i (j - 1) + 1)) :
    0 < i ∧ 0 < j := by
  rcases Nat.eq_zero_or_pos i with rfl | hipos
  · exfalso
    have hjpos : 0 < j := by omega
    apply hins
    refine ⟨hjpos, ?_⟩
    rw [EditDp.dpv_zero_left tokensRoughlyMatch ref hyp j hj,
      EditDp.dpv_zero_left tokensRoughlyMatch ref hyp (j - 1) (by omega)]
    omega
  · rcases Nat.eq_zero_or_pos j with rfl | hjpos
    · exfalso
      apply hdel
      refine ⟨hipos, ?_⟩
      rw [EditDp.dpv_zero_right tokensRoughlyMatch ref hyp i hi,
        EditDp.dpv_zero_right tokensRoughlyMatch ref hyp (i - 1) (by omega)]
      omega
    · exact ⟨hipos, hjpos⟩

/-- The ops collected by the backtrace from `(i, j)` consume exactly the
reference indices `i-1, …, 0` and the hypothesis indices `j-1, …, 0`, in
that order. -/
theorem backtraceAux_indices (ref hyp : List String) :
    ∀ (fuel i j : ℕ), i + j ≤ fuel → i ≤ ref.length → j ≤ hyp.length →
      (backtraceAux ref hyp fuel i j).filterMap refIndexOf = (List.range i).reverse ∧
      (backtraceAux ref hyp fuel i j).filterMap hypIndexOf = (List.range j).reverse := by
  intro fuel
  induction fuel with
  | zero =>
    intro i j hf hi hj
    have h1 : i = 0 := by omega
    have h2 : j = 0 := by omega
    subst h1; subst h2
    simp [backtraceAux]
  | succ fuel ih =>
    intro i j hf hi hj
    rw [backtraceAux]
    by_cases h0 : i = 0 ∧ j = 0
    · obtain ⟨rfl, rfl⟩ := h0
      simp
    · rw [if_neg h0]
      by_cases hdel : 0 < i ∧ EditDp.dpv tokensRoughlyMatch ref hyp i j =
          EditDp.dpv tokensRoughlyMatch ref hyp (i - 1) j + 1
      · rw [if_pos hdel]
        obtain ⟨i', rfl⟩ : ∃ i', i = i' + 1 := ⟨i - 1, by omega⟩
        have h := ih i' j (by omega) (by omega) hj
        simp [Nat.add_sub_cancel, List.filterMap_cons, refIndexOf, hypIndexOf,
          h.1, h.2, range_reverse_succ]
      · rw [if_neg hdel]
        by_cases hins : 0 < j ∧ EditDp.dpv tokensRoughlyMatch ref hyp i j =
            EditDp.dpv tokensRoughlyMatch ref hyp i (j - 1) + 1
        · rw [if_pos hins]
          obtain ⟨j', rfl⟩ : ∃ j', j = j' + 1 := ⟨j - 1, by omega⟩
          have h := ih i j' (by omega) hi (by omega)
          simp [Nat.add_sub_cancel, List.filterMap_cons, refIndexOf, hypIndexOf,
            h.1, h.2, range_reverse_succ]
        · rw [if_neg hins]
          have hpos := backtrace_branch_pos ref hyp i j hi hj h0 hdel hins
          obtain ⟨i', rfl⟩ : ∃ i', i = i' + 1 := ⟨i - 1, by omega⟩
          obtain ⟨j', rfl⟩ : ∃ j', j = j' + 1 := ⟨j - 1, by omega⟩
          have h := ih i' j' (by omega) (by omega) (by omega)
          cases hrm : tokensRoughlyMatch (ref.getD (i' + 1 - 1) "") (hyp.getD (j' + 1 - 1) "") <;>
            simp [hrm, Nat.add_sub_cancel, List.filterMap_cons, refIndexOf, hypIndexOf,
              h.1, h.2, range_reverse_succ]

/-- The total op cost collected by the backtrace from `(i, j)` is exactly
`dp[i][j]`. -/
theorem backtraceAux_cost (ref hyp : List String) :
    ∀ (fuel i j : ℕ), i + j ≤ fuel → i ≤ ref.length → j ≤ hyp.length →
      ((backtraceAux ref hyp fuel i j).map opCost).sum =
        EditDp.dpv tokensRoughlyMatch ref hyp i j := by
  intro fuel
  induction fuel with
  | zero =>
    intro i j hf hi hj
    have h1 : i = 0 := by omega
    have h2 : j = 0 := by omega
    subst h1; subst h2
    simp [backtraceAux, EditDp.dpv_zero_left tokensRoughlyMatch ref hyp 0 (by omega)]
  | succ fuel ih =>
    intro i j hf hi hj
    rw [backtraceAux]
    by_cases h0 : i = 0 ∧ j = 0
    · obtain ⟨rfl, rfl⟩ := h0
      simp [EditDp.dpv_zero_left tokensRoughlyMatch ref hyp 0 (by omega)]
    · rw [if_neg h0]
      by_cases hdel : 0 < i ∧ EditDp.dpv tokensRoughlyMatch ref hyp i j =
          EditDp.dpv tokensRoughlyMatch ref hyp (i - 1) j + 1
      · rw [if_pos hdel]
        have h := ih (i - 1) j (by omega) (by omega) hj
        simp only [List.map_cons, List.sum_cons, opCost, h]
        omega
      · rw [if_neg hdel]
        by_cases hins : 0 < j ∧ EditDp.dpv tokensRoughlyMatch ref hyp i j =
            EditDp.dpv tokensRoughlyMatch ref hyp i (j - 1) + 1
        · rw [if_pos hins]
          have h := ih i (j - 1) (by omega) hi (by omega)
          simp only [List.map_cons, List.sum_cons, opCost, h]
          omega
        · rw [if_neg hins]
          have hpos := backtrace_branch_pos ref hyp i j hi hj h0 hdel hins
          have hdiag := EditDp.dpv_diag tokensRoughlyMatch ref hyp i j hpos.1 hi hpos.2 hj
            (by intro hc; exact hdel ⟨hpos.1, hc⟩) (by intro hc; exact hins ⟨hpos.2, hc⟩)
          have h := ih (i - 1) (j - 1) (by omega) (by omega) (by omega)
          cases hrm : tokensRoughlyMatch (ref.getD (i - 1) "") (hyp.getD (j - 1) "")
          · rw [hrm] at hdiag
            simp only [Bool.false_eq_true, if_false] at hdiag
            simp [hrm, opCost, h]
            omega
          · rw [hrm] at hdiag
            simp only [if_true] at hdiag
            simp [hrm, opCost, h]
            omega

end Sherpa

namespace Sherpa

theorem nonInsertOps_cons (op : AlignmentOp) (rest : List AlignmentOp) :
    nonInsertOps (op :: rest) =
      if isInsertOp op then nonInsertOps rest else op :: nonInsertOps rest := by
  cases hop : isInsertOp op <;> simp [nonInsertOps, List.filter_cons, hop]

theorem timelineGo_length (tokens : List WordToken) (words : List SherpaWordTiming) :
    ∀ (ops : List AlignmentOp) (lastEnd : ℚ),
      (timelineGo tokens words ops lastEnd).length = (nonInsertOps ops).length := by
  intro ops
  induction ops with
  | nil => intro lastEnd; simp [timelineGo, nonInsertOps]
  | cons op rest ih =>
    intro lastEnd
    cases op <;> rw [nonInsertOps_cons] <;>
      simp [timelineGo, isInsertOp, ih]

theorem getD_zero_delete (l : List AlignmentOp)
    (h : isDeleteOp (l.getD 0 (.insert 0)) = true) : ∃ r, l.head? = some (.delete r) := by
  match l with
  | [] => simp [isDeleteOp] at h
  | op :: rest =>
    cases op with
    | delete r => exact ⟨r, rfl⟩
    | equal r h' => simp [isDeleteOp] at h
    | replace r h' => simp [isDeleteOp] at h
    | insert h' => simp [isDeleteOp] at h

/-- If the first entry-emitting op is a deletion, the first timeline entry
ends at `max 0 (lastEnd - 0.1) + 0.4`. -/
theorem timelineGo_head_delete (tokens : List WordToken) (words : List SherpaWordTiming) :
    ∀ (ops : List AlignmentOp) (lastEnd : ℚ) (r : ℕ),
      (nonInsertOps ops).head? = some (.delete r) →
      ((timelineGo tokens words ops lastEnd).getD 0 ⟨"", 0, 0⟩).endTime =
        max 0 (lastEnd - 0.1) + 0.4 := by
  intro ops
  induction ops with
  | nil => intro lastEnd r h; simp [nonInsertOps] at h
  | cons op rest ih =>
    intro lastEnd r h
    rw [nonInsertOps_cons] at h
    cases op with
    | equal a b => simp [isInsertOp] at h
    | replace a b => simp [isInsertOp] at h
    | delete a => simp [timelineGo]
    | insert a =>
      rw [if_pos (by simp [isInsertOp])] at h
      simpa [timelineGo] using ih lastEnd r h

/-- The end times never regress at a deletion entry: an entry emitted for a
Deletion op ends no earlier than the entry before it. -/
theorem timelineGo_delete_mono (tokens : List WordToken) (words : List SherpaWordTiming) :
    ∀ (ops : List AlignmentOp) (lastEnd : ℚ) (k : ℕ),
      isDeleteOp ((nonInsertOps ops).getD (k + 1) (.insert 0)) = true →
      ((timelineGo tokens words ops lastEnd).getD k ⟨"", 0, 0⟩).endTime ≤
        ((timelineGo tokens words ops lastEnd).getD (k + 1) ⟨"", 0, 0⟩).endTime := by
  intro ops
  induction ops with
  | nil => intro lastEnd k h; simp [nonInsertOps, isDeleteOp] at h
  | cons op rest ih =>
    intro lastEnd k h
    rw [nonInsertOps_cons] at h
    cases op with
    | insert a =>
      rw [if_pos (by simp [isInsertOp])] at h
      simpa [timelineGo] using ih lastEnd k h
    | equal a b =>
      rw [if_neg (by simp [isInsertOp])] at h
      rw [List.getD_cons_succ] at h
      cases k with
      | zero =>
        obtain ⟨r, hr⟩ := getD_zero_delete _ h
        have hh := timelineGo_head_delete tokens words rest
          (padWordWindow (words.getD b ⟨"", "", 0, 0⟩).startTime
            (words.getD b ⟨"", "", 0, 0⟩).endTime).2 r hr
        simp only [timelineGo, List.getD_cons_zero, List.getD_cons_succ, hh]
        have := le_max_right (0 : ℚ)
          ((padWordWindow (words.getD b ⟨"", "", 0, 0⟩).startTime
            (words.getD b ⟨"", "", 0, 0⟩).endTime).2 - 0.1)
        have h14 : (0.1 : ℚ) ≤ 0.4 := by norm_num
        linarith
      | succ k =>
        have := ih (padWordWindow (words.getD b ⟨"", "", 0, 0⟩).startTime
          (words.getD b ⟨"", "", 0, 0⟩).endTime).2 k h
        simpa [timelineGo] using this
    | replace a b =>
      rw [if_neg (by simp [isInsertOp])] at h
      rw [List.getD_cons_succ] at h
      cases k with
      | zero =>
        obtain ⟨r, hr⟩ := getD_zero_delete _ h
        have hh := timelineGo_head_delete tokens words rest
          (padWordWindow (words.getD b ⟨"", "", 0, 0⟩).startTime
            (words.getD b ⟨"", "", 0, 0⟩).endTime).2 r hr
        simp only [timelineGo, List.getD_cons_zero, List.getD_cons_succ, hh]
        have := le_max_right (0 : ℚ)
          ((padWordWindow (words.getD b ⟨"", "", 0, 0⟩).startTime
            (words.getD b ⟨"", "", 0, 0⟩).endTime).2 - 0.1)
        have h14 : (0.1 : ℚ) ≤ 0.4 := by norm_num
        linarith
      | succ k =>
        have := ih (padWordWindow (words.getD b ⟨"", "", 0, 0⟩).startTime
          (words.getD b ⟨"", "", 0, 0⟩).endTime).2 k h
        simpa [timelineGo] using this
    | delete a =>
      rw [if_neg (by simp [isInsertOp])] at h
      rw [List.getD_cons_succ] at h
      cases k with
      | zero =>
        obtain ⟨r, hr⟩ := getD_zero_delete _ h
        have hh := timelineGo_head_delete tokens words rest
          (max 0 (lastEnd - 0.1) + 0.4) r hr
        simp only [timelineGo, List.getD_cons_zero, List.getD_cons_succ, hh]
        have := le_max_right (0 : ℚ) (max 0 (lastEnd - 0.1) + 0.4 - 0.1)
        have h14 : (0.1 : ℚ) ≤ 0.4 := by norm_num
        linarith
      | succ k =>
        have := ih (max 0 (lastEnd - 0.1) + 0.4) k h
        simpa [timelineGo] using this

end Sherpa

namespace ScoringEngine

theorem levRowAux2_getD_le (y : Char) :
    ∀ (xs : List Char) (prev : List ℕ) (left i j0 : ℕ),
      (∀ k, prev.getD k 0 ≤ max i (j0 + k)) → left ≤ max (i + 1) j0 →
      ∀ k, (levRowAux2 y xs prev left).getD k 0 ≤ max (i + 1) (j0 + k + 1) := by
  intro xs
  induction xs with
  | nil => intro prev left i j0 hprev hleft k; simp [levRowAux2]
  | cons x xs ih =>
    intro prev left i j0 hprev hleft k
    have hv : (if y = x then prev.headD 0
        else min (prev.headD 0 + 1) (min (left + 1) (prev.tail.headD 0 + 1))) ≤
        max (i + 1) (j0 + 1) := by
      have hd : prev.headD 0 ≤ max i j0 := by
        have := hprev 0
        rwa [EditDp.headD_eq_getD, Nat.add_zero] at *
      split
      · omega
      · have : min (prev.headD 0 + 1) (min (left + 1) (prev.tail.headD 0 + 1)) ≤
            prev.headD 0 + 1 := min_le_left _ _
        omega
    cases k with
    | zero =>
      simpa [levRowAux2] using hv
    | succ k =>
      simp only [levRowAux2, List.getD_cons_succ]
      have hprev' : ∀ k, prev.tail.getD k 0 ≤ max i (j0 + 1 + k) := by
        intro k
        rw [EditDp.getD_tail]
        have := hprev (k + 1)
        omega
      have := ih prev.tail _ i (j0 + 1) hprev' hv k
      omega

theorem levRows2Go_getD_le (as : List Char) :
    ∀ (ys : List Char) (i : ℕ) (row : List ℕ),
      (∀ k, row.getD k 0 ≤ max i k) →
      ∀ k, (levRows2Go as ys i row).getD k 0 ≤ max (i + ys.length) k := by
  intro ys
  induction ys with
  | nil => intro i row hrow k; simpa [levRows2Go] using hrow k
  | cons y ys ih =>
    intro i row hrow k
    simp only [levRows2Go]
    have hnew : ∀ k, ((i + 1) :: levRowAux2 y as row (i + 1)).getD k 0 ≤ max (i + 1) k := by
      intro k
      cases k with
      | zero => simp
      | succ k =>
        simp only [List.getD_cons_succ]
        have := levRowAux2_getD_le y as row (i + 1) i 0
          (by intro k; simpa using hrow k) (by omega) k
        omega
    have := ih (i + 1) _ hnew k
    simp only [List.length_cons]
    omega

/-- The Levenshtein distance never exceeds the longer input's length. -/
theorem computeLevenshtein_le (a b : String) :
    computeLevenshtein a b ≤ max a.length b.length := by
  rw [computeLevenshtein]
  split
  · omega
  · split
    · omega
    · have hrow : ∀ k, (List.range (a.data.length + 1)).getD k 0 ≤ max 0 k := by
        intro k
        rw [List.getD_eq_getElem?_getD]
        by_cases hk : k < a.data.length + 1
        · rw [List.getElem?_range hk]; simp
        · rw [List.getElem?_eq_none (by rw [List.length_range]; omega)]; simp
      have := levRows2Go_getD_le a.data b.data 0 _ hrow a.data.length
      have ha : a.length = a.data.length := rfl
      have hb : b.length = b.data.length := rfl
      omega

/-- `stringSimilarity` always lies in `[0, 1]`. -/
theorem stringSimilarity_bounds (a b : String) :
    0 ≤ stringSimilarity a b ∧ stringSimilarity a b ≤ 1 := by
  rw [stringSimilarity]
  split
  · norm_num
  · rename_i hmax
    have hle := computeLevenshtein_le a b
    have hpos : 0 < (max a.length b.length : ℚ) := by
      have : 0 < max a.length b.length := by omega
      exact_mod_cast this
    constructor
    · have : (computeLevenshtein a b : ℚ) / (max a.length b.length : ℚ) ≤ 1 := by
        rw [div_le_one hpos]
        exact_mod_cast hle
      push_cast at this ⊢
      linarith
    · have : 0 ≤ (computeLevenshtein a b : ℚ) / (max a.length b.length : ℚ) :=
        div_nonneg (by positivity) (le_of_lt hpos)
      push_cast at this ⊢
      linarith

/-- `Math.round` of a number in `[lo, hi]` (integer bounds) is an integer
in `[lo, hi]`. -/
theorem jsRound_mem (lo hi : ℤ) (q : ℚ) (h0 : (lo : ℚ) ≤ q) (h1 : q ≤ (hi : ℚ)) :
    ∃ k : ℤ, jsRound q = (k : ℚ) ∧ lo ≤ k ∧ k ≤ hi := by
  refine ⟨⌊q + 1 / 2⌋, rfl, ?_, ?_⟩
  · rw [Int.le_floor]
    linarith
  · rw [Int.floor_le_iff]
    linarith

/-- Confidence of any (possibly out-of-range) recognized word, after the
`?? 0.95` default, is in `[0, 1]` for valid inputs. -/
theorem recWord_conf_bound (recWords : List RecWord) (idx : ℕ)
    (hconf : ∀ w ∈ recWords, ∀ c, w.confidence = some c → 0 ≤ c ∧ c ≤ 1) :
    0 ≤ (recWords.getD idx ⟨"", 0, 0, none, ""⟩).confidence.getD 0.95 ∧
      (recWords.getD idx ⟨"", 0, 0, none, ""⟩).confidence.getD 0.95 ≤ 1 := by
  rw [List.getD_eq_getElem?_getD]
  cases hg : recWords[idx]? with
  | none => norm_num
  | some w =>
    have hw : w ∈ recWords := List.getElem?_mem hg
    simp only [Option.getD_some]
    cases hc : w.confidence with
    | none => norm_num
    | some c =>
      have := hconf w hw c hc
      simpa using this

/-- Every `WordResult` produced by the scoring loop has an integer score in
`[0, 100]`. -/
theorem detailOf_score_bounds (refWords : List String) (recWords : List RecWord)
    (item : AlignmentItem) (d : WordResult)
    (hconf : ∀ w ∈ recWords, ∀ c, w.confidence = some c → 0 ≤ c ∧ c ≤ 1)
    (hd : detailOf refWords recWords item = some d) :
    ∃ k : ℤ, d.score = (k : ℚ) ∧ 0 ≤ k ∧ k ≤ 100 := by
  rw [detailOf] at hd
  cases htype : item.type <;> rw [htype] at hd
  case insertion => exact absurd hd (by simp)
  case matched =>
    have hcb := recWord_conf_bound recWords item.recIndex.toNat hconf
    obtain ⟨k, hk, hk0, hk1⟩ := jsRound_mem 0 100
      ((recWords.getD item.recIndex.toNat ⟨"", 0, 0, none, ""⟩).confidence.getD 0.95 * 100)
      (by push_cast; nlinarith [hcb.1, hcb.2]) (by push_cast; nlinarith [hcb.1, hcb.2])
    refine ⟨k, ?_, hk0, hk1⟩
    have : d.score = jsRound
        ((recWords.getD item.recIndex.toNat ⟨"", 0, 0, none, ""⟩).confidence.getD 0.95 * 100) := by
      have := congrArg (Option.map WordResult.score) hd
      simpa using this.symm
    rw [this, hk]
  case substitution =>
    have hsb := stringSimilarity_bounds (refWords.getD item.refIndex.toNat "")
      (recWords.getD item.recIndex.toNat ⟨"", 0, 0, none, ""⟩).normalized
    obtain ⟨k, hk, hk0, hk1⟩ := jsRound_mem 0 20
      (stringSimilarity (refWords.getD item.refIndex.toNat "")
        (recWords.getD item.recIndex.toNat ⟨"", 0, 0, none, ""⟩).normalized * 20)
      (by push_cast; nlinarith [hsb.1, hsb.2]) (by push_cast; nlinarith [hsb.1, hsb.2])
    refine ⟨40 + k, ?_, by omega, by omega⟩
    have : d.score = 40 + jsRound
        (stringSimilarity (refWords.getD item.refIndex.toNat "")
          (recWords.getD item.recIndex.toNat ⟨"", 0, 0, none, ""⟩).normalized * 20) := by
      have := congrArg (Option.map WordResult.score) hd
      simpa using this.symm
    rw [this, hk]
    push_cast
    ring
  case deletion =>
    refine ⟨0, ?_, by omega, by omega⟩
    have := congrArg (Option.map WordResult.score) hd
    simpa using this.symm

end ScoringEngine

namespace ScoringEngine

/-- Items that consume a reference index (everything but insertions). -/
def isRefItem : AlignmentItem → Bool := fun it =>
  it.type == .matched || it.type == .substitution || it.type == .deletion

theorem alignBacktraceAux_refCount (ref hyp : List String) :
    ∀ (fuel i j : ℕ), i + j ≤ fuel →
      (alignBacktraceAux ref hyp fuel i j).countP isRefItem = i := by
  intro fuel
  induction fuel with
  | zero =>
    intro i j hf
    have h1 : i = 0 := by omega
    have h2 : j = 0 := by omega
    subst h1; subst h2
    simp [alignBacktraceAux]
  | succ fuel ih =>
    intro i j hf
    rw [alignBacktraceAux]
    by_cases h0 : i = 0 ∧ j = 0
    · obtain ⟨rfl, rfl⟩ := h0
      simp
    · rw [if_neg h0]
      by_cases hpos : 0 < i ∧ 0 < j
      · rw [if_pos hpos]
        by_cases hsub : EditDp.dpv simEq ref hyp i j =
            EditDp.dpv simEq ref hyp (i - 1) (j - 1) +
              (if simEq (ref.getD (i - 1) "") (hyp.getD (j - 1) "") then 0 else 1)
        · rw [if_pos hsub]
          have h := ih (i - 1) (j - 1) (by omega)
          cases him : simEq (ref.getD (i - 1) "") (hyp.getD (j - 1) "") <;>
            simp [him, List.countP_cons, isRefItem, h] <;> omega
        · rw [if_neg hsub]
          by_cases hdel : EditDp.dpv simEq ref hyp i j = EditDp.dpv simEq ref hyp (i - 1) j + 1
          · rw [if_pos hdel]
            have h := ih (i - 1) j (by omega)
            simp [List.countP_cons, isRefItem, h]
            omega
          · rw [if_neg hdel]
            have h := ih i (j - 1) (by omega)
            simp [List.countP_cons, isRefItem, h]
      · rw [if_neg hpos]
        by_cases hi : 0 < i
        · rw [if_pos hi]
          have h := ih (i - 1) j (by omega)
          simp [List.countP_cons, isRefItem, h]
          omega
        · rw [if_neg hi]
          have h := ih i (j - 1) (by omega)
          simp [List.countP_cons, isRefItem, h]

/-- The number of Match items never exceeds the reference length. -/
theorem alignSequence_matchCount_le (refW : List String) (recs : List RecWord) :
    (alignSequence refW recs).countP (fun it => it.type == .matched) ≤ refW.length := by
  rw [alignSequence]
  rw [List.countP_reverse]
  calc (alignBacktraceAux refW (recs.map (·.normalized))
        (refW.length + (recs.map (·.normalized)).length)
        refW.length (recs.map (·.normalized)).length).countP (fun it => it.type == .matched)
      ≤ (alignBacktraceAux refW (recs.map (·.normalized))
        (refW.length + (recs.map (·.normalized)).length)
        refW.length (recs.map (·.normalized)).length).countP isRefItem := by
        apply List.countP_mono_left
        intro it _ hit
        simp only [isRefItem, Bool.or_eq_true]
        left; left; exact hit
    _ = refW.length := alignBacktraceAux_refCount _ _ _ _ _ (by omega)

theorem details_sum_bounds (details : List WordResult)
    (h : ∀ d ∈ details, ∃ k : ℤ, d.score = (k : ℚ) ∧ 0 ≤ k ∧ k ≤ 100) :
    0 ≤ (details.map (·.score)).sum ∧
      (details.map (·.score)).sum ≤ 100 * details.length := by
  induction details with
  | nil => simp
  | cons d rest ih =>
    obtain ⟨k, hk, hk0, hk1⟩ := h d (by simp)
    have hrest := ih fun d' hd' => h d' (by simp [hd'])
    have h0 : (0 : ℚ) ≤ d.score := by rw [hk]; exact_mod_cast hk0
    have h1 : d.score ≤ 100 := by
      rw [hk]
      have : (k : ℚ) ≤ (100 : ℤ) := by exact_mod_cast hk1
      simpa using this
    simp only [List.map_cons, List.sum_cons, List.length_cons]
    constructor
    · linarith [hrest.1]
    · push_cast
      linarith [hrest.2]

end ScoringEngine

namespace ScoringEngine

theorem fluencyScoreOf_ok (recognizedTokens : List SherpaToken) :
    scoreOK (some (fluencyScoreOf recognizedTokens)) := by
  refine ⟨max 0 (100 - 5 * (countPauses recognizedTokens : ℤ)), ?_, ?_, ?_⟩
  · rw [fluencyScoreOf]
    push_cast
    ring_nf
  · exact le_max_left _ _
  · have : (100 : ℤ) - 5 * (countPauses recognizedTokens : ℤ) ≤ 100 := by omega
    omega

theorem pronunciationScoreOf_ok (details : List WordResult)
    (h : ∀ d ∈ details, ∃ k : ℤ, d.score = (k : ℚ) ∧ 0 ≤ k ∧ k ≤ 100) :
    scoreOK (some (pronunciationScoreOf details)) := by
  obtain ⟨hs0, hs1⟩ := details_sum_bounds details h
  have hden : (1 : ℚ) ≤ (max 1 details.length : ℚ) := by
    have : (1 : ℕ) ≤ max 1 details.length := le_max_left _ _
    exact_mod_cast this
  have hdenpos : (0 : ℚ) < (max 1 details.length : ℚ) := by linarith
  have hlen : (details.length : ℚ) ≤ (max 1 details.length : ℚ) := by
    have : details.length ≤ max 1 details.length := le_max_right _ _
    exact_mod_cast this
  obtain ⟨k, hk, hk0, hk1⟩ := jsRound_mem 0 100
    ((details.map (·.score)).sum / (max 1 details.length : ℚ))
    (by positivity)
    (by
      rw [div_le_iff₀ hdenpos]
      calc (details.map (·.score)).sum ≤ 100 * details.length := hs1
        _ ≤ 100 * (max 1 details.length : ℚ) := by nlinarith)
  exact ⟨k, by rw [pronunciationScoreOf, hk], hk0, hk1⟩

theorem integrityScoreOf_ok (matchCount refCount : ℕ)
    (hle : matchCount ≤ refCount) (hpos : 0 < refCount) :
    scoreOK (integrityScoreOf matchCount refCount) := by
  have hrc : ((refCount : ℚ)) ≠ 0 := by
    have : (0 : ℚ) < refCount := by exact_mod_cast hpos
    linarith
  have hratio0 : (0 : ℚ) ≤ (matchCount : ℚ) / (refCount : ℚ) := by positivity
  have hratio1 : (matchCount : ℚ) / (refCount : ℚ) ≤ 1 := by
    rw [div_le_one (by positivity)]
    exact_mod_cast hle
  obtain ⟨k, hk, hk0, hk1⟩ := jsRound_mem 0 100 ((matchCount : ℚ) / (refCount : ℚ) * 100)
    (by nlinarith) (by nlinarith)
  refine ⟨k, ?_, hk0, hk1⟩
  rw [integrityScoreOf, jsDiv, if_neg hrc]
  simp only [jsMul, jsRoundN, Option.map₂]
  simp
  rw [← hk]

theorem overallScoreOf_ok (pron fluency : ℚ) (integrity : Option ℚ)
    (hp : ∃ k : ℤ, pron = (k : ℚ) ∧ 0 ≤ k ∧ k ≤ 100)
    (hf : ∃ k : ℤ, fluency = (k : ℚ) ∧ 0 ≤ k ∧ k ≤ 100)
    (hi : scoreOK integrity) :
    scoreOK (overallScoreOf pron integrity fluency) := by
  obtain ⟨kp, hkp, hkp0, hkp1⟩ := hp
  obtain ⟨kf, hkf, hkf0, hkf1⟩ := hf
  obtain ⟨ki, hki, hki0, hki1⟩ := hi
  have hp0 : (0 : ℚ) ≤ pron := by rw [hkp]; exact_mod_cast hkp0
  have hp1 : pron ≤ 100 := by
    rw [hkp]; exact_mod_cast (show kp ≤ (100 : ℤ) from hkp1)
  have hf0 : (0 : ℚ) ≤ fluency := by rw [hkf]; exact_mod_cast hkf0
  have hf1 : fluency ≤ 100 := by
    rw [hkf]; exact_mod_cast (show kf ≤ (100 : ℤ) from hkf1)
  have hi0 : (0 : ℚ) ≤ (ki : ℚ) := by exact_mod_cast hki0
  have hi1 : (ki : ℚ) ≤ 100 := by exact_mod_cast (show ki ≤ (100 : ℤ) from hki1)
  obtain ⟨k, hk, hk0, hk1⟩ := jsRound_mem 0 100
    (pron * 0.5 + (ki : ℚ) * 0.3 + fluency * 0.2)
    (by norm_num; nlinarith) (by norm_num; nlinarith)
  refine ⟨k, ?_, hk0, hk1⟩
  rw [overallScoreOf, hki]
  simp only [jsMul, jsAdd, jsRoundN, Option.map₂]
  simp
  rw [← hk]

/-- Confidence bound transfer from the raw input to the mapped `RecWord`
list. -/
theorem toRecWords_conf (input : AssessmentInput) (hvalid : validInput input = true) :
    ∀ w ∈ toRecWords input.recognizedTokens, ∀ c, w.confidence = some c →
      0 ≤ c ∧ c ≤ 1 := by
  intro w hw c hc
  rw [toRecWords, List.mem_map] at hw
  obtain ⟨t, ht, rfl⟩ := hw
  rw [validInput, List.all_eq_true] at hvalid
  have := hvalid t ht
  simp only [Bool.and_eq_true] at this
  have hconf := this.1
  simp only at hc
  rw [hc] at hconf
  simpa using hconf

/-- `assess` produces four integer scores in `[0, 100]` for every valid
input whose reference text, when it passes the blank-text guard, tokenizes
to at least one word. -/
theorem assess_scoreOK (input : AssessmentInput)
    (hvalid : validInput input = true)
    (href : normalizeAndTokenize input.referenceText = [] →
      (input.referenceText = "" ∨ (Sherpa.jsTrim input.referenceText).length = 0)) :
    scoreOK (assess input).overallScore ∧ scoreOK (assess input).fluencyScore ∧
      scoreOK (assess input).integrityScore ∧ scoreOK (assess input).pronunciationScore := by
  have hzero : scoreOK (some 0) := ⟨0, rfl, by omega, by omega⟩
  by_cases hguard : input.referenceText = "" ∨ (Sherpa.jsTrim input.referenceText).length = 0
  · simp only [assess, if_pos hguard, emptyReport]
    exact ⟨hzero, hzero, hzero, hzero⟩
  · by_cases hrec : (toRecWords input.recognizedTokens).length = 0
    · simp only [assess, if_neg hguard, if_pos hrec]
      exact ⟨hzero, hzero, hzero, hzero⟩
    · have hreftok : normalizeAndTokenize input.referenceText ≠ [] := by
        intro hnil
        exact hguard (href hnil)
      have hrefpos : 0 < (normalizeAndTokenize input.referenceText).length :=
        List.length_pos.mpr hreftok
      have hconf := toRecWords_conf input hvalid
      have hdetails : ∀ d ∈ detailsOf (normalizeAndTokenize input.referenceText)
          (toRecWords input.recognizedTokens), ∃ k : ℤ, d.score = (k : ℚ) ∧ 0 ≤ k ∧ k ≤ 100 := by
        intro d hd
        rw [detailsOf, List.mem_filterMap] at hd
        obtain ⟨item, _, hitem⟩ := hd
        exact detailOf_score_bounds _ _ item d hconf hitem
      have hpron := pronunciationScoreOf_ok _ hdetails
      have hflu := fluencyScoreOf_ok input.recognizedTokens
      have hinteg := integrityScoreOf_ok
        (matchCountOf (normalizeAndTokenize input.referenceText) (toRecWords input.recognizedTokens))
        (normalizeAndTokenize input.referenceText).length
        (alignSequence_matchCount_le _ _) hrefpos
      have hoverall := overallScoreOf_ok
        (pronunciationScoreOf (detailsOf (normalizeAndTokenize input.referenceText)
          (toRecWords input.recognizedTokens)))
        (fluencyScoreOf input.recognizedTokens)
        (integrityScoreOf (matchCountOf (normalizeAndTokenize input.referenceText)
          (toRecWords input.recognizedTokens)) (normalizeAndTokenize input.referenceText).length)
        (by obtain ⟨k, hk, h0, h1⟩ := hpron; exact ⟨k, by simpa using hk, h0, h1⟩)
        (by obtain ⟨k, hk, h0, h1⟩ := hflu; exact ⟨k, by simpa using hk, h0, h1⟩)
        hinteg
      simp only [assess, if_neg hguard, if_neg hrec]
      exact ⟨hoverall, hflu, hinteg, hpron⟩

end ScoringEngine

theorem string_length_pos (s : String) (h : s ≠ "") : 0 < s.length := by
  rcases s with ⟨l⟩
  cases l with
  | nil => simp at h
  | cons c cs => simp [String.length]

namespace Sherpa

/-- `tokensRoughlyMatch` holds exactly when the tokens are identical or
their character-level edit distance is at most `0.45` of the longer
length. -/
theorem tokensRoughlyMatch_iff (left right : String) :
    tokensRoughlyMatch left right = true ↔
      (left = right ∨ (levenshteinDistance left right : ℚ) /
        (max left.length right.length : ℚ) ≤ 0.45) := by
  rw [tokensRoughlyMatch]
  by_cases heq : left = right
  · simp [heq]
  · rw [if_neg heq]
    by_cases hemp : left = "" ∨ right = ""
    · rw [if_pos hemp]
      simp only [Bool.false_eq_true, false_iff]
      push_neg
      refine ⟨heq, ?_⟩
      rcases hemp with hl | hr
      · subst hl
        have hr : right ≠ "" := fun hc => heq hc.symm
        have hrl : 0 < right.length := string_length_pos right hr
        rw [levenshteinDistance, if_neg heq, if_pos rfl]
        have h0 : ("" : String).length = 0 := rfl
        rw [h0]
        rw [show ((0 : ℕ) : ℚ) = 0 from rfl, max_eq_right (by positivity),
          div_self (by positivity)]
        norm_num
      · subst hr
        have hl : left ≠ "" := heq
        have hll : 0 < left.length := string_length_pos left hl
        rw [levenshteinDistance, if_neg heq, if_neg hl, if_pos rfl]
        have h0 : ("" : String).length = 0 := rfl
        rw [h0]
        rw [show ((0 : ℕ) : ℚ) = 0 from rfl, max_eq_left (by positivity),
          div_self (by positivity)]
        norm_num
    · rw [if_neg hemp]
      push_neg at hemp
      obtain ⟨hl, hr⟩ := hemp
      have hmax : 0 < max left.length right.length :=
        lt_max_of_lt_left (string_length_pos left hl)
      simp only [decide_eq_true_eq, heq, false_or]
      rw [if_neg (by omega), ← Nat.cast_max,
        div_le_iff₀ (show (0 : ℚ) < (max left.length right.length : ℕ) by exact_mod_cast hmax)]
      constructor
      · intro h
        have h' : (20 : ℚ) * (levenshteinDistance left right : ℕ) ≤
            9 * ((max left.length right.length : ℕ) : ℚ) := by exact_mod_cast h
        push_cast at h'
        norm_num
        linarith
      · intro h
        norm_num at h
        have h' : (20 : ℚ) * ((levenshteinDistance left right : ℕ) : ℚ) ≤
            9 * (max (left.length : ℚ) (right.length : ℚ)) := by linarith
        exact_mod_cast h'

end Sherpa

/-- Claim C1: in the token aligner, the substitution cost is 0 and the op is
classified Match exactly when the two normalized tokens are identical or
their character-level edit distance divided by the maximum of their lengths
is at most 0.45 (the cost at a DP cell is `if tokensRoughlyMatch then 0 else
1` and the diagonal op is classified by the same test); in particular,
aligning the reference `["cat"]` with the hypothesis `["kat"]` yields a
single Match op. -/
theorem claim_C1_rough_match_threshold :
    (∀ left right : String, Sherpa.tokensRoughlyMatch left right = true ↔
      (left = right ∨ (Sherpa.levenshteinDistance left right : ℚ) /
        (max left.length right.length : ℚ) ≤ 0.45)) ∧
    Sherpa.computeAlignmentOps ["cat"] ["kat"] = [Sherpa.AlignmentOp.equal 0 0] :=
  ⟨Sherpa.tokensRoughlyMatch_iff, by decide⟩

/-- Claim C2: the op list of the aligner covers the reference indices
`0..n-1` exactly once, in increasing order, through its Match/Substitution/
Deletion ops, and the hypothesis indices `0..m-1` exactly once, in
increasing order, through its Match/Substitution/Insertion ops. -/
theorem claim_C2_alignment_completeness (refTokens hypTokens : List String) :
    (Sherpa.computeAlignmentOps refTokens hypTokens).filterMap Sherpa.refIndexOf =
      List.range refTokens.length ∧
    (Sherpa.computeAlignmentOps refTokens hypTokens).filterMap Sherpa.hypIndexOf =
      List.range hypTokens.length := by
  have h := Sherpa.backtraceAux_indices refTokens hypTokens
    (refTokens.length + hypTokens.length) refTokens.length hypTokens.length
    (by omega) (by omega) (by omega)
  rw [Sherpa.computeAlignmentOps]
  constructor
  · rw [List.filterMap_reverse, h.1, List.reverse_reverse]
  · rw [List.filterMap_reverse, h.2, List.reverse_reverse]

/-- Claim C3: the total cost of the returned op list (Match free, every
other op costing 1) equals the bottom-right entry `dp[n][m]` of the cost
table. -/
theorem claim_C3_alignment_optimality (refTokens hypTokens : List String) :
    ((Sherpa.computeAlignmentOps refTokens hypTokens).map Sherpa.opCost).sum =
      EditDp.dpv Sherpa.tokensRoughlyMatch refTokens hypTokens
        refTokens.length hypTokens.length := by
  rw [Sherpa.computeAlignmentOps, List.map_reverse, List.sum_reverse]
  exact Sherpa.backtraceAux_cost refTokens hypTokens
    (refTokens.length + hypTokens.length) refTokens.length hypTokens.length
    (by omega) (by omega) (by omega)

/-- Claim C4: a backtrace step at interior indices `i > 0`, `j > 0` follows
the fixed priority: a Deletion when `dp[i][j] = dp[i-1][j] + 1`, otherwise
an Insertion when `dp[i][j] = dp[i][j-1] + 1`, otherwise the diagonal step
classified by the rough-match test — so equal-cost ties go to deletion
first, then insertion, then the diagonal. -/
theorem claim_C4_backtrace_priority (ref hyp : List String) (fuel i j : ℕ)
    (hi : 0 < i) (hj : 0 < j) :
    Sherpa.backtraceAux ref hyp (fuel + 1) i j =
      if EditDp.dpv Sherpa.tokensRoughlyMatch ref hyp i j =
          EditDp.dpv Sherpa.tokensRoughlyMatch ref hyp (i - 1) j + 1 then
        Sherpa.AlignmentOp.delete (i - 1) :: Sherpa.backtraceAux ref hyp fuel (i - 1) j
      else if EditDp.dpv Sherpa.tokensRoughlyMatch ref hyp i j =
          EditDp.dpv Sherpa.tokensRoughlyMatch ref hyp i (j - 1) + 1 then
        Sherpa.AlignmentOp.insert (j - 1) :: Sherpa.backtraceAux ref hyp fuel i (j - 1)
      else
        (if Sherpa.tokensRoughlyMatch (ref.getD (i - 1) "") (hyp.getD (j - 1) "") then
          Sherpa.AlignmentOp.equal (i - 1) (j - 1)
        else
          Sherpa.AlignmentOp.replace (i - 1) (j - 1)) ::
            Sherpa.backtraceAux ref hyp fuel (i - 1) (j - 1) := by
  rw [Sherpa.backtraceAux, if_neg (by omega)]
  simp only [hi, hj, true_and]

/-- Witness for claim C4 at a tie: aligning `["a"]` against `["a", "a"]`
at `(i, j) = (1, 2)` the insertion and diagonal options tie at cost 1, and
the insertion is chosen. -/
theorem claim_C4_witness :
    Sherpa.backtraceAux ["a"] ["a", "a"] 2 1 2 =
      Sherpa.AlignmentOp.insert 1 :: Sherpa.backtraceAux ["a"] ["a", "a"] 1 1 1 := by
  rw [claim_C4_backtrace_priority ["a"] ["a", "a"] 1 1 2 (by norm_num) (by norm_num)]
  rw [if_neg (by decide), if_pos (by decide)]

/-- Counterexample for claim C5: with reference tokens `a b`, recognizer
words `a: [0, 100]` and `b: [0.5, 1]` (noisy end time), and the ops the
aligner computes for them (two Matches), the Timing Reconciler emits end
times `100.3, 1.3` — not non-decreasing. -/
theorem claim_C5_counterexample :
    ¬ List.Pairwise (· ≤ ·)
      ((Sherpa.buildTimelineEntriesFromOps [⟨"a", "a"⟩, ⟨"b", "b"⟩]
        [⟨"a", "a", 0, 100⟩, ⟨"b", "b", 0.5, 1⟩]
        (Sherpa.computeAlignmentOps ["a", "b"] ["a", "b"])).map
          Sherpa.TimelineEntry.endTime) := by
  have hops : Sherpa.computeAlignmentOps ["a", "b"] ["a", "b"] =
      [.equal 0 0, .equal 1 1] := by decide
  rw [hops]
  simp [Sherpa.buildTimelineEntriesFromOps, Sherpa.timelineGo, Sherpa.padWordWindow,
    Sherpa.MIN_WORD_DURATION, Sherpa.START_PADDING_SEC, Sherpa.END_PADDING_SEC]
  norm_num

/-- Claim C5 as amended: the end-time sequence emitted by the Timing
Reconciler never regresses at a Deletion entry — an entry emitted for a
Deletion op ends no earlier than the entry before it (Match/Substitution
entries take their window from the recognizer timestamps and may regress
when those are noisy, as the counterexample shows). -/
theorem claim_C5_amended (tokens : List Sherpa.WordToken)
    (words : List Sherpa.SherpaWordTiming) (ops : List Sherpa.AlignmentOp) (k : ℕ)
    (h : Sherpa.isDeleteOp ((Sherpa.nonInsertOps ops).getD (k + 1)
      (Sherpa.AlignmentOp.insert 0)) = true) :
    ((Sherpa.buildTimelineEntriesFromOps tokens words ops).getD k ⟨"", 0, 0⟩).endTime ≤
      ((Sherpa.buildTimelineEntriesFromOps tokens words ops).getD (k + 1) ⟨"", 0, 0⟩).endTime :=
  Sherpa.timelineGo_delete_mono tokens words ops 0 k h

/-- Witness for the amended claim C5: aligning reference `a b` with the
single recognizer word `a` yields a Match followed by a Deletion, and the
Deletion entry ends no earlier than the Match entry. -/
theorem claim_C5_amended_witness :
    Sherpa.isDeleteOp ((Sherpa.nonInsertOps (Sherpa.computeAlignmentOps ["a", "b"] ["a"])).getD 1
      (Sherpa.AlignmentOp.insert 0)) = true ∧
    ((Sherpa.buildTimelineEntriesFromOps [⟨"a", "a"⟩, ⟨"b", "b"⟩] [⟨"a", "a", 0, 1⟩]
      (Sherpa.computeAlignmentOps ["a", "b"] ["a"])).getD 0 ⟨"", 0, 0⟩).endTime ≤
      ((Sherpa.buildTimelineEntriesFromOps [⟨"a", "a"⟩, ⟨"b", "b"⟩] [⟨"a", "a", 0, 1⟩]
        (Sherpa.computeAlignmentOps ["a", "b"] ["a"])).getD 1 ⟨"", 0, 0⟩).endTime :=
  ⟨by decide, claim_C5_amended [⟨"a", "a"⟩, ⟨"b", "b"⟩] [⟨"a", "a", 0, 1⟩]
    (Sherpa.computeAlignmentOps ["a", "b"] ["a"]) 0 (by decide)⟩

namespace ScoringEngine

theorem c6_align : alignSequence ["the", "cat", "sat"]
    (toRecWords [⟨"the", 0, 0.3, some 0.9⟩, ⟨"cat", 0.3, 0.6, some 0.9⟩,
      ⟨"sat", 0.6, 0.9, some 0.9⟩]) =
    [⟨.matched, 0, 0⟩, ⟨.matched, 1, 1⟩, ⟨.matched, 2, 2⟩] := by
  decide

theorem c6_details : detailsOf ["the", "cat", "sat"]
    (toRecWords [⟨"the", 0, 0.3, some 0.9⟩, ⟨"cat", 0.3, 0.6, some 0.9⟩,
      ⟨"sat", 0.6, 0.9, some 0.9⟩]) =
    [⟨"the", .correct, 90, some (0, 0.3)⟩, ⟨"cat", .correct, 90, some (0.3, 0.6)⟩,
      ⟨"sat", .correct, 90, some (0.6, 0.9)⟩] := by
  rw [detailsOf, c6_align]
  simp [detailOf, toRecWords]
  norm_num [jsRound]

theorem c6_assess : assess ⟨"the cat sat",
    [⟨"the", 0, 0.3, some 0.9⟩, ⟨"cat", 0.3, 0.6, some 0.9⟩, ⟨"sat", 0.6, 0.9, some 0.9⟩]⟩ =
    { overallScore := some 95, fluencyScore := some 100, integrityScore := some 100,
      pronunciationScore := some 90,
      details := [⟨"the", .correct, 90, some (0, 0.3)⟩, ⟨"cat", .correct, 90, some (0.3, 0.6)⟩,
        ⟨"sat", .correct, 90, some (0.6, 0.9)⟩] } := by
  have hguard : ¬(("the cat sat" : String) = "" ∨ (Sherpa.jsTrim "the cat sat").length = 0) := by
    decide
  have hreftok : normalizeAndTokenize "the cat sat" = ["the", "cat", "sat"] := by decide
  have hmc : matchCountOf ["the", "cat", "sat"]
      (toRecWords [⟨"the", 0, 0.3, some 0.9⟩, ⟨"cat", 0.3, 0.6, some 0.9⟩,
        ⟨"sat", 0.6, 0.9, some 0.9⟩]) = 3 := by decide
  simp only [assess, hreftok]
  rw [if_neg hguard]
  rw [if_neg (by decide : ¬(toRecWords [⟨"the", 0, 0.3, some 0.9⟩, ⟨"cat", 0.3, 0.6, some 0.9⟩,
    ⟨"sat", 0.6, 0.9, some 0.9⟩]).length = 0)]
  rw [c6_details, hmc]
  have hpron : pronunciationScoreOf
      [⟨"the", .correct, 90, some (0, 0.3)⟩, ⟨"cat", .correct, 90, some (0.3, 0.6)⟩,
        ⟨"sat", .correct, 90, some (0.6, 0.9)⟩] = 90 := by
    simp [pronunciationScoreOf]
    norm_num [jsRound]
  have hflu : fluencyScoreOf [⟨"the", 0, 0.3, some 0.9⟩, ⟨"cat", 0.3, 0.6, some 0.9⟩,
      ⟨"sat", 0.6, 0.9, some 0.9⟩] = 100 := by
    norm_num [fluencyScoreOf, countPauses]
  have hinteg : integrityScoreOf 3 (["the", "cat", "sat"] : List String).length = some 100 := by
    simp [integrityScoreOf, jsDiv, jsMul, jsRoundN]
    norm_num [jsRound]
  rw [hpron, hflu, hinteg]
  have hover : overallScoreOf 90 (some 100) 100 = some 95 := by
    simp [overallScoreOf, jsAdd, jsMul, jsRoundN]
    norm_num [jsRound]
  rw [hover]

end ScoringEngine

/-- Counterexample for claim C6: on the reference `"the cat sat"` with the
three recognized words of the scenario, `assess` returns
`overallScore = 95` (the weighted formula rounds `90·0.5 + 100·0.3 +
100·0.2 = 95`), not `94` as claimed. -/
theorem claim_C6_counterexample :
    ¬ (ScoringEngine.assess ⟨"the cat sat",
      [⟨"the", 0, 0.3, some 0.9⟩, ⟨"cat", 0.3, 0.6, some 0.9⟩,
        ⟨"sat", 0.6, 0.9, some 0.9⟩]⟩).overallScore = some 94 := by
  rw [ScoringEngine.c6_assess]
  simp

/-- Claim C6 as amended: the scenario produces three Match ops and a report
with `integrityScore = 100`, `pronunciationScore = 90`, `fluencyScore =
100`, and `overallScore = 95` (not 94: the documented formula itself yields
`round(90·0.5 + 100·0.3 + 100·0.2) = round(95) = 95`). -/
theorem claim_C6_amended :
    ScoringEngine.alignSequence (ScoringEngine.normalizeAndTokenize "the cat sat")
      (ScoringEngine.toRecWords [⟨"the", 0, 0.3, some 0.9⟩, ⟨"cat", 0.3, 0.6, some 0.9⟩,
        ⟨"sat", 0.6, 0.9, some 0.9⟩]) =
      [⟨.matched, 0, 0⟩, ⟨.matched, 1, 1⟩, ⟨.matched, 2, 2⟩] ∧
    (ScoringEngine.assess ⟨"the cat sat",
      [⟨"the", 0, 0.3, some 0.9⟩, ⟨"cat", 0.3, 0.6, some 0.9⟩,
        ⟨"sat", 0.6, 0.9, some 0.9⟩]⟩).integrityScore = some 100 ∧
    (ScoringEngine.assess ⟨"the cat sat",
      [⟨"the", 0, 0.3, some 0.9⟩, ⟨"cat", 0.3, 0.6, some 0.9⟩,
        ⟨"sat", 0.6, 0.9, some 0.9⟩]⟩).pronunciationScore = some 90 ∧
    (ScoringEngine.assess ⟨"the cat sat",
      [⟨"the", 0, 0.3, some 0.9⟩, ⟨"cat", 0.3, 0.6, some 0.9⟩,
        ⟨"sat", 0.6, 0.9, some 0.9⟩]⟩).fluencyScore = some 100 ∧
    (ScoringEngine.assess ⟨"the cat sat",
      [⟨"the", 0, 0.3, some 0.9⟩, ⟨"cat", 0.3, 0.6, some 0.9⟩,
        ⟨"sat", 0.6, 0.9, some 0.9⟩]⟩).overallScore = some 95 := by
  refine ⟨?_, ?_, ?_, ?_, ?_⟩
  · have h := ScoringEngine.c6_align
    rwa [show ScoringEngine.normalizeAndTokenize "the cat sat" = ["the", "cat", "sat"]
      from by decide]
  all_goals rw [ScoringEngine.c6_assess]

/-- Counterexample for claim C7: the reference text `"."` (non-blank but
tokenizing to no words) with one valid recognized word passes the blank-text
guard, divides `matchCount / refCount = 0 / 0`, and yields non-finite
(`NaN`) `integrityScore` and `overallScore` — not integers in `[0, 100]`. -/
theorem claim_C7_counterexample :
    ScoringEngine.validInput ⟨".", [⟨"hi", 0, 0, some 1⟩]⟩ = true ∧
    (ScoringEngine.assess ⟨".", [⟨"hi", 0, 0, some 1⟩]⟩).integrityScore = none ∧
    (ScoringEngine.assess ⟨".", [⟨"hi", 0, 0, some 1⟩]⟩).overallScore = none := by
  refine ⟨by decide, ?_, ?_⟩ <;>
  · simp only [ScoringEngine.assess,
      show ScoringEngine.normalizeAndTokenize "." = [] from by decide]
    rw [if_neg (by decide), if_neg (by decide)]
    simp [ScoringEngine.integrityScoreOf, ScoringEngine.overallScoreOf,
      ScoringEngine.jsDiv, ScoringEngine.jsMul, ScoringEngine.jsAdd,
      ScoringEngine.jsRoundN]

/-- Claim C7 as amended: for every valid input (recognized-word confidences
in `[0, 1]`, end times at least start times) whose reference text, when it
passes the blank-text guard, tokenizes to at least one word, all four
scores of the report are integers in `[0, 100]` — including the
all-insertions, all-deletions and blank-reference cases.  (The unamended
claim fails only for non-blank reference texts with zero word tokens, e.g.
`"."`, where the integrity division is `0 / 0`.) -/
theorem claim_C7_amended (input : ScoringEngine.AssessmentInput)
    (hvalid : ScoringEngine.validInput input = true)
    (href : ScoringEngine.normalizeAndTokenize input.referenceText = [] →
      (input.referenceText = "" ∨ (Sherpa.jsTrim input.referenceText).length = 0)) :
    ScoringEngine.scoreOK (ScoringEngine.assess input).overallScore ∧
    ScoringEngine.scoreOK (ScoringEngine.assess input).fluencyScore ∧
    ScoringEngine.scoreOK (ScoringEngine.assess input).integrityScore ∧
    ScoringEngine.scoreOK (ScoringEngine.assess input).pronunciationScore :=
  ScoringEngine.assess_scoreOK input hvalid href

/-- Witness for the amended claim C7 at a concrete valid input. -/
theorem claim_C7_amended_witness :
    ScoringEngine.validInput ⟨"hi", [⟨"x", 0, 1, some 1⟩]⟩ = true ∧
    (ScoringEngine.scoreOK
        (ScoringEngine.assess ⟨"hi", [⟨"x", 0, 1, some 1⟩]⟩).overallScore ∧
      ScoringEngine.scoreOK
        (ScoringEngine.assess ⟨"hi", [⟨"x", 0, 1, some 1⟩]⟩).fluencyScore ∧
      ScoringEngine.scoreOK
        (ScoringEngine.assess ⟨"hi", [⟨"x", 0, 1, some 1⟩]⟩).integrityScore ∧
      ScoringEngine.scoreOK
        (ScoringEngine.assess ⟨"hi", [⟨"x", 0, 1, some 1⟩]⟩).pronunciationScore) :=
  ⟨by decide, claim_C7_amended ⟨"hi", [⟨"x", 0, 1, some 1⟩]⟩ (by decide)
    (fun h => absurd h (by decide))⟩

namespace Sherpa

theorem jsTrimChars_all_ws (l : List Char) (h : l.all isJsWhitespace = true) :
    jsTrimChars l = [] := by
  rw [jsTrimChars]
  rw [List.all_eq_true] at h
  rw [List.dropWhile_eq_nil_iff.mpr h]
  simp

end Sherpa

/-- Claim C8: for every input whose reference text is empty or consists
only of whitespace, `assess` returns the all-zero report with empty
details, regardless of the recognized words. -/
theorem claim_C8_blank_reference (input : ScoringEngine.AssessmentInput)
    (h : input.referenceText.data.all Sherpa.isJsWhitespace = true) :
    (ScoringEngine.assess input).overallScore = some 0 ∧
    (ScoringEngine.assess input).fluencyScore = some 0 ∧
    (ScoringEngine.assess input).integrityScore = some 0 ∧
    (ScoringEngine.assess input).pronunciationScore = some 0 ∧
    (ScoringEngine.assess input).details = [] := by
  have hguard : input.referenceText = "" ∨ (Sherpa.jsTrim input.referenceText).length = 0 := by
    right
    rw [Sherpa.jsTrim, Sherpa.jsTrimChars_all_ws input.referenceText.data h]
    rfl
  simp [ScoringEngine.assess, if_pos hguard, ScoringEngine.emptyReport]

/-- Witness for claim C8 on a whitespace-only reference with a non-empty
recognized-word list. -/
theorem claim_C8_witness :
    (ScoringEngine.assess ⟨" ", [⟨"hi", 0, 0, some 1⟩]⟩).overallScore = some 0 ∧
    (ScoringEngine.assess ⟨" ", [⟨"hi", 0, 0, some 1⟩]⟩).fluencyScore = some 0 ∧
    (ScoringEngine.assess ⟨" ", [⟨"hi", 0, 0, some 1⟩]⟩).integrityScore = some 0 ∧
    (ScoringEngine.assess ⟨" ", [⟨"hi", 0, 0, some 1⟩]⟩).pronunciationScore = some 0 ∧
    (ScoringEngine.assess ⟨" ", [⟨"hi", 0, 0, some 1⟩]⟩).details = [] :=
  claim_C8_blank_reference ⟨" ", [⟨"hi", 0, 0, some 1⟩]⟩ (by decide)

namespace Sherpa

/-- Every word `pushWord` accepts has a non-empty normalization and at
least the minimum duration. -/
theorem pushWord_prop (original : Option String) (start «end» : Option ℚ)
    (w : SherpaWordTiming) (h : pushWord original start «end» = some w) :
    w.normalized ≠ "" ∧ w.startTime + 0.05 ≤ w.endTime := by
  cases original with
  | none => exact absurd h (by simp [pushWord])
  | some orig =>
    rw [show pushWord (some orig) start «end» =
      (if orig = "" then none
      else
        let normalized := normalizeWordForAlignment orig
        if normalized = "" then none
        else
          let startTime := safeNumber start 0
          let endTime := max (startTime + MIN_WORD_DURATION)
            (safeNumber «end» (startTime + MIN_WORD_DURATION))
          some ⟨orig, normalized, startTime, endTime⟩) from rfl] at h
    by_cases h1 : orig = ""
    · rw [if_pos h1] at h
      exact absurd h (by simp)
    · rw [if_neg h1] at h
      by_cases h2 : normalizeWordForAlignment orig = ""
      · rw [if_pos h2] at h
        exact absurd h (by simp)
      · rw [if_neg h2] at h
        obtain rfl := Option.some_injective _ h.symm
        refine ⟨h2, ?_⟩
        show safeNumber start 0 + 0.05 ≤
          max (safeNumber start 0 + MIN_WORD_DURATION) _
        have : MIN_WORD_DURATION = 0.05 := rfl
        rw [← this]
        exact le_max_left _ _

/-- Every token produced by the tokenizer has a non-empty normalization. -/
theorem tokenize_normalized_ne (txt : String) :
    ∀ t ∈ tokenizeForAlignment txt, t.normalized ≠ "" := by
  intro t ht
  rw [tokenizeForAlignment] at ht
  split at ht
  · simp at ht
  · rw [List.mem_filterMap] at ht
    obtain ⟨run, _, hrun⟩ := ht
    dsimp only at hrun
    by_cases hn : normalizeWordForAlignment (String.mk run) = ""
    · rw [if_pos hn] at hrun
      exact absurd hrun (by simp)
    · rw [if_neg hn] at hrun
      obtain rfl := Option.some_injective _ hrun.symm
      exact hn

/-- The property claimed of every parsed word. -/
def goodTiming (w : SherpaWordTiming) : Prop :=
  w.normalized ≠ "" ∧ w.startTime + 0.05 ≤ w.endTime

theorem pushPayloadWord_prop (pw : PayloadWord) (w : SherpaWordTiming)
    (h : pushPayloadWord pw = some w) : goodTiming w :=
  pushWord_prop _ _ _ w h

theorem segmentWords_prop (seg : PayloadSegment) (w : SherpaWordTiming)
    (h : w ∈ segmentWords seg) : goodTiming w := by
  rw [segmentWords] at h
  split at h
  · rw [List.mem_filterMap] at h
    obtain ⟨pw, _, hpw⟩ := h
    exact pushPayloadWord_prop pw w hpw
  · split at h
    · split at h
      · simp at h
      · rw [Option.mem_toList, Option.mem_def] at h
        exact pushWord_prop _ _ _ w h
    · simp at h

end Sherpa


theorem mem_of_mem_ite_nil {α : Type} {c : Prop} [Decidable c] {l : List α} {w : α}
    (hw : w ∈ (if c then l else [])) : w ∈ l := by
  by_cases h : c
  · rwa [if_pos h] at hw
  · rw [if_neg h] at hw
    exact absurd hw (List.not_mem_nil w)

/-- Claim C9: for every accepted recognizer payload and any fallback
duration, the word-timing list returned by `parseSherpaWordTimings` is
sorted by non-decreasing start time, and every entry has a non-empty
normalized form and an end time at least `0.05` after its start time. -/
theorem claim_C9_parse_invariants (alignment : Sherpa.SherpaAlignment)
    (fallbackDuration : ℚ) :
    List.Pairwise (fun a b => a.startTime ≤ b.startTime)
      (Sherpa.parseSherpaWordTimings alignment fallbackDuration) ∧
    ∀ w ∈ Sherpa.parseSherpaWordTimings alignment fallbackDuration,
      w.normalized ≠ "" ∧ w.startTime + 0.05 ≤ w.endTime := by
  simp only [Sherpa.parseSherpaWordTimings]
  constructor
  · refine List.Pairwise.imp (fun h => of_decide_eq_true h)
      (List.sorted_mergeSort ?_ ?_ _)
    · intro a b c hab hbc
      simp only [decide_eq_true_eq] at *
      linarith
    · intro a b
      simp only [Bool.or_eq_true, decide_eq_true_eq]
      exact le_total _ _
  · intro w hw
    rw [List.mem_mergeSort] at hw
    rcases List.mem_append.mp hw with hw | hw
    · rcases List.mem_append.mp hw with hw | hw
      · rcases List.mem_append.mp hw with hw | hw
        · rcases halignw : alignment.words with _ | ws <;> rw [halignw] at hw
          · simp at hw
          · dsimp only at hw
            rw [List.mem_filterMap] at hw
            obtain ⟨pw, _, hpw⟩ := hw
            exact Sherpa.pushPayloadWord_prop pw w hpw
        · rcases hsegs : alignment.segments with _ | segs <;> rw [hsegs] at hw
          · simp at hw
          · dsimp only at hw
            rw [List.mem_flatMap] at hw
            obtain ⟨seg, _, hseg⟩ := hw
            exact Sherpa.segmentWords_prop seg w hseg
      · have hw' := mem_of_mem_ite_nil hw
        rcases htok : alignment.tokens with _ | tokens <;> rw [htok] at hw'
        · simp at hw'
        · dsimp only at hw'
          rw [List.mem_filterMap] at hw'
          obtain ⟨p, _, hp⟩ := hw'
          exact Sherpa.pushWord_prop _ _ _ w hp
    · have hw' := mem_of_mem_ite_nil hw
      rcases htext : alignment.text with _ | txt <;> rw [htext] at hw'
      · simp at hw'
      · dsimp only at hw'
        rw [List.mem_map] at hw'
        obtain ⟨p, hp, hpw⟩ := hw'
        have hmem : p.2 ∈ Sherpa.tokenizeForAlignment txt := List.snd_mem_of_mem_enum hp
        have hnz := Sherpa.tokenize_normalized_ne txt p.2 hmem
        have hlen : 0 < (Sherpa.tokenizeForAlignment txt).length :=
          List.length_pos.mpr (List.ne_nil_of_mem hmem)
        have hlenq : (1 : ℚ) ≤ ((Sherpa.tokenizeForAlignment txt).length : ℚ) := by
          exact_mod_cast hlen
        have hstep : Sherpa.MIN_WORD_DURATION ≤
            max fallbackDuration
              (Sherpa.MIN_WORD_DURATION * ((Sherpa.tokenizeForAlignment txt).length : ℚ)) /
              max (1 : ℚ) ((Sherpa.tokenizeForAlignment txt).length : ℚ) := by
          rw [max_eq_right hlenq, le_div_iff₀ (by linarith)]
          exact le_max_right _ _
        rw [← hpw]
        refine ⟨hnz, ?_⟩
        have hmin : Sherpa.MIN_WORD_DURATION = 0.05 := rfl
        dsimp only
        linarith

/-- Claim C10: when the tokenized reference text is empty or the hypothesis
word list is empty, `buildWordTimelineFromSherpa` returns an empty timeline
and an empty op list, together with the tokens it produced, without running
the aligner. -/
theorem claim_C10_empty_inputs (referenceText : String)
    (sherpaWords : List Sherpa.SherpaWordTiming)
    (h : Sherpa.tokenizeForAlignment referenceText = [] ∨ sherpaWords = []) :
    Sherpa.buildWordTimelineFromSherpa referenceText sherpaWords =
      ⟨[], Sherpa.tokenizeForAlignment referenceText, []⟩ := by
  have hc : (Sherpa.tokenizeForAlignment referenceText).length = 0 ∨
      sherpaWords.length = 0 := by
    rcases h with h | h
    · left; rw [h]; rfl
    · right; rw [h]; rfl
  simp only [Sherpa.buildWordTimelineFromSherpa]
  rw [if_pos hc]

/-- Witness for claim C10: a non-empty reference with no recognizer words
produces the empty timeline and op list. -/
theorem claim_C10_witness :
    Sherpa.buildWordTimelineFromSherpa "hello" [] =
      ⟨[], Sherpa.tokenizeForAlignment "hello", []⟩ :=
  claim_C10_empty_inputs "hello" [] (Or.inr rfl)
